import Mathlib

/-!
# Verification of the ENS batch reconciliation pipeline (`src/processor.ts`)

Shallow embedding of the reconciliation and enrichment logic of the ENS
indexer: the normalized event record `ENSData`, the contract singleton
resolver `getOrCreateContractEntity`, and the batch reconciliation loop
`saveENSData`, together with a model of the persistence boundary
(upsert-by-primary-key, as stated by the specification of the external
storage layer).

Modelling conventions:
* JavaScript `Map` objects are association lists with `Map.get`/`Map.set`
  semantics (`mget`/`mset`: update-in-place keeps the entry position,
  otherwise append; `new Map(entries)` lets the last entry win).
* JavaScript `Set` objects of freshly constructed records are lists in
  insertion order (every `new Transfer(...)` is a distinct object).
* Object identity of in-memory `Owner`/`Token` entities is tracked by an
  allocation tag `alloc` drawn from a counter in the state; the persisted
  rows drop the tag.
* `string | undefined` fields are `Option String`; JS truthiness of such a
  field ("" and `undefined` are falsy) is `truthy`.  `number | undefined`
  expiration is `Option Nat` (`0` is falsy).
* `address.toLowerCase()` is `String.toLower` (the addresses are ASCII).
* The metadata enrichment call (`axios.get` on the ENS metadata endpoint)
  is an oracle `enrich : Nat → Option Meta`: `none` models a request that
  throws (network error / non-2xx response / absent body), `some m` a
  delivered payload whose `image`/`name`/`url` properties may each be
  absent (`meta.data.image` etc. evaluate to `undefined` on a malformed
  payload instead of throwing).
* `Date.now()` is `Config.now` (milliseconds), fixed for the batch.
* Store writes are recorded in a `writeLog` so that write-ordering claims
  can be stated.
-/

/-- ASCII lower-casing of one character, as `String.prototype.toLowerCase`
acts on the basic latin range; this is core `Char.toLower`. -/
abbrev lowerChar : Char → Char := Char.toLower

/-- `s.toLowerCase()` of the source: character-wise ASCII lower-casing.
Equal to core `String.toLower` (see `lower_eq_toLower`), but defined by
structural recursion over the character list so that concrete instances
evaluate inside the kernel. -/
def lower (s : String) : String := ⟨s.data.map lowerChar⟩

/-- `const contractAddress = "0x57f1887a8BF19b14fC0dF6Fd9B2acc9Af147eA85".toLowerCase()` -/
def contractAddress : String :=
  lower "0x57f1887a8BF19b14fC0dF6Fd9B2acc9Af147eA85"

/-- Shape of the payload delivered by the metadata endpoint.  Each field is
optional: on a malformed payload the property accesses
`meta.data.image` / `meta.data.name` / `meta.data.url` yield `undefined`. -/
structure Meta where
  image : Option String
  name : Option String
  url : Option String
deriving DecidableEq, Repr

/-- The normalized event record produced by the three decoders
(`type ENSData` in the source).  `from`/`to` are `fromAddr`/`toAddr`
because `from` is reserved in Lean. -/
structure ENSData where
  id : String
  fromAddr : Option String
  toAddr : Option String
  tokenId : Nat
  timestamp : Nat
  expires : Option Nat
  block : Nat
  transactionHash : String
deriving DecidableEq, Repr

/-- JS truthiness of a `string | undefined` value: defined and non-empty. -/
def truthy : Option String → Bool
  | some a => a ≠ ""
  | none => false

/-- `x || ""` on a `string | undefined` value. -/
def orEmpty : Option String → String
  | some a => a
  | none => ""

/-- In-memory `Owner` entity: identity plus an allocation tag recording
which `new Owner(...)` (or which preloaded row) the object came from. -/
structure Owner where
  id : String
  alloc : Nat
deriving DecidableEq, Repr

/-- In-memory `GoodContract` entity. -/
structure GoodContract where
  id : String
  name : String
  symbol : String
  totalSupply : Nat
  numberField : Nat
deriving DecidableEq, Repr

/-- In-memory `BadContract` (legacy/compatibility) entity. -/
structure BadContract where
  id : String
  name : String
  symbol : String
  totalSupply : Nat
  customField : String
deriving DecidableEq, Repr

/-- In-memory `Token` entity.  `owner` holds the referenced `Owner` object
(`Owner` has no mutable field, so holding it by value is faithful);
`contract` holds the id of the referenced contract entity. -/
structure Token where
  id : String
  owner : Option Owner
  name : Option String
  imageURI : Option String
  uri : Option String
  expires : Option Nat
  contract : Option String
  alloc : Nat
deriving DecidableEq, Repr

/-- In-memory `Transfer` record.  The referenced `Owner`/`Token` objects
are recorded by identity (entity id) and object identity (`alloc` tag);
entity ids of the referenced objects never change after creation. -/
structure Transfer where
  id : String
  block : Nat
  timestamp : Nat
  transactionHash : String
  fromId : String
  fromAlloc : Nat
  toId : String
  toAlloc : Nat
  tokenId : String
  tokenAlloc : Nat
deriving DecidableEq, Repr

/-- Persisted `Owner` row. -/
structure OwnerRow where
  id : String
deriving DecidableEq, Repr

/-- Persisted `Token` row (references stored as foreign keys). -/
structure TokenRow where
  id : String
  owner : Option String
  name : Option String
  imageURI : Option String
  uri : Option String
  expires : Option Nat
  contract : Option String
deriving DecidableEq, Repr

/-- Persisted `Transfer` row (references stored as foreign keys). -/
structure TransferRow where
  id : String
  block : Nat
  timestamp : Nat
  transactionHash : String
  fromId : String
  toId : String
  tokenId : String
deriving DecidableEq, Repr

/-- The durable store: one table per entity kind, rows in table order. -/
structure Store where
  owners : List OwnerRow
  tokens : List TokenRow
  transfers : List TransferRow
  good : List GoodContract
  bad : List BadContract
deriving DecidableEq, Repr

/-- Kinds of store writes, recorded for the write-ordering claims. -/
inductive WriteKind where
  | insertGoodContract
  | insertBadContract
  | saveOwners
  | saveTokens
  | saveTransfers
deriving DecidableEq, Repr

/-- The state threaded through one run of `saveENSData`: the store, the
process-wide contract singleton cache, the three working collections, the
allocation counter, the list of token ids for which the metadata endpoint
was called, and the log of store writes. -/
structure SaveState where
  store : Store
  cache : Option GoodContract
  owners : List (String × Owner)
  tokens : List (String × Token)
  transfers : List Transfer
  nextAlloc : Nat
  enrichCalls : List Nat
  writeLog : List WriteKind
deriving DecidableEq, Repr

/-- `Map.prototype.get`. -/
def mget {α : Type} (m : List (String × α)) (k : String) : Option α :=
  (m.find? (fun p => p.1 == k)).map (fun p => p.2)

/-- `Map.prototype.set`: overwrite in place if the key is present
(keeping the entry's position), otherwise append. -/
def mset {α : Type} (m : List (String × α)) (k : String) (v : α) :
    List (String × α) :=
  if (m.find? (fun p => p.1 == k)).isSome then
    m.map (fun p => if p.1 == k then (k, v) else p)
  else
    m ++ [(k, v)]

/-- `new Map(entries)`: entries are `set` in order, so for a duplicated
key the last entry wins. -/
def mkMap {α : Type} (entries : List (String × α)) : List (String × α) :=
  entries.foldl (fun m p => mset m p.1 p.2) []

/-- Upsert one row into a table: overwrite the row(s) with the same
primary key in place, otherwise append (insert-if-absent,
overwrite-full-row-if-present, as the persistence boundary specifies). -/
def upsertBy {α : Type} (key : α → String) (rows : List α) (r : α) :
    List α :=
  if rows.any (fun x => key x == key r) then
    rows.map (fun x => if key x == key r then r else x)
  else
    rows ++ [r]

/-- Bulk upsert (`store.save([...])` on a collection). -/
def upsertAllBy {α : Type} (key : α → String) (rows : List α)
    (news : List α) : List α :=
  news.foldl (upsertBy key) rows

/-- Environment of one batch run: the wall clock (`Date.now()`, in
milliseconds) and the metadata-endpoint oracle keyed by token id. -/
structure Config where
  now : Nat
  enrich : Nat → Option Meta

/--
```
let contractEntity: GoodContract | undefined;
export async function getOrCreateContractEntity(store): Promise<GoodContract>
```
Point lookup by the fixed contract address; if absent, create the
`GoodContract` together with its paired `BadContract` record and insert
both; cache the result process-wide.
-/
def getOrCreateContractEntity (s : SaveState) : GoodContract × SaveState :=
  match s.cache with
  | some c => (c, s)
  | none =>
    match s.store.good.find? (fun c => c.id == contractAddress) with
    | some c => (c, { s with cache := some c })
    | none =>
      let c : GoodContract :=
        { id := contractAddress, name := "Ethereum Name Service",
          symbol := "ENS", totalSupply := 0, numberField := 0 }
      let badC : BadContract :=
        { id := contractAddress, name := "Ethereum Name Service",
          symbol := "ENS", totalSupply := 0, customField := "asd" }
      (c, { s with
              cache := some c
              store := { s.store with
                           good := s.store.good ++ [c]
                           bad := s.store.bad ++ [badC] }
              writeLog := s.writeLog ++
                [WriteKind.insertGoodContract, WriteKind.insertBadContract] })

/--
```
let fromOwner = owners.get(from || "");
if (from && fromOwner == null) {
  fromOwner = new Owner({ id: from.toLowerCase() });
  owners.set(fromOwner.id, fromOwner);
}
```
(and the symmetric `toOwner` resolution).  Returns the resolved owner
object (or `none`) together with the updated state.
-/
def resolveOwner (s : SaveState) (addr : Option String) :
    Option Owner × SaveState :=
  let found := mget s.owners (orEmpty addr)
  if truthy addr ∧ found = none then
    let o : Owner := { id := lower (orEmpty addr), alloc := s.nextAlloc }
    (some o, { s with owners := mset s.owners o.id o,
                      nextAlloc := s.nextAlloc + 1 })
  else
    (found, s)

/--
```
const tokenIdString = tokenId.toString();
let token = tokens.get(tokenIdString);
if (token == null) {
  token = new Token({ id: tokenIdString,
                      contract: await getOrCreateContractEntity(ctx.store) });
  tokens.set(token.id, token);
}
```
-/
def resolveToken (s : SaveState) (tokenId : Nat) : Token × SaveState :=
  let tokenIdString := toString tokenId
  match mget s.tokens tokenIdString with
  | some t => (t, s)
  | none =>
    let rC := getOrCreateContractEntity s
    let t : Token :=
      { id := tokenIdString, owner := none, name := none, imageURI := none,
        uri := none, expires := none, contract := some rC.1.id,
        alloc := rC.2.nextAlloc }
    (t, { rC.2 with tokens := mset rC.2.tokens t.id t,
                    nextAlloc := rC.2.nextAlloc + 1 })

/--
```
if (toOwner && fromOwner) {
  const transfer = new Transfer({ id, block, timestamp, transactionHash,
                                  from: fromOwner, to: toOwner, token });
  transfers.add(transfer);
}
```
-/
def addTransfer (s : SaveState) (e : ENSData)
    (fromOwner toOwner : Option Owner) (token : Token) : SaveState :=
  match toOwner, fromOwner with
  | some t, some f =>
    { s with transfers := s.transfers ++
        [{ id := e.id, block := e.block, timestamp := e.timestamp,
           transactionHash := e.transactionHash,
           fromId := f.id, fromAlloc := f.alloc,
           toId := t.id, toAlloc := t.alloc,
           tokenId := token.id, tokenAlloc := token.alloc }] }
  | _, _ => s

/-- The body of `for (const ensData of ensDataArr) { ... }` in
`saveENSData`: owner resolution, token resolution, unconditional owner
assignment, the expiration/enrichment block (whose expired case
`continue`s past transfer creation), and transfer creation. -/
def processEvent (cfg : Config) (s : SaveState) (e : ENSData) : SaveState :=
  let rFrom := resolveOwner s e.fromAddr
  let fromOwner := rFrom.1
  let s1 := rFrom.2
  let rTo := resolveOwner s1 e.toAddr
  let toOwner := rTo.1
  let s2 := rTo.2
  let rTok := resolveToken s2 e.tokenId
  let token0 := rTok.1
  let s3 := rTok.2
  -- token.owner = toOwner;
  let token1 := { token0 with owner := toOwner }
  let s4 := { s3 with tokens := mset s3.tokens token1.id token1 }
  match e.expires with
  | some expires =>
    if expires ≠ 0 then
      -- token.expires = BigInt(expires);
      let token2 := { token1 with expires := some expires }
      let s5 := { s4 with tokens := mset s4.tokens token2.id token2 }
      if expires * 1000 < cfg.now then
        -- continue;
        s5
      else
        -- let name = "", uri = "", imageURI = "";
        -- try { const meta = await axios.get(tokenURI); ... }
        -- catch (e) { ... } finally { token.name = name; ... }
        let s6 := { s5 with enrichCalls := s5.enrichCalls ++ [e.tokenId] }
        let fields : Option String × Option String × Option String :=
          match cfg.enrich e.tokenId with
          | none => (some "", some "", some "")
          | some meta => (meta.name, meta.url, meta.image)
        let token3 := { token2 with name := fields.1, uri := fields.2.1,
                                    imageURI := fields.2.2 }
        let s7 := { s6 with tokens := mset s6.tokens token3.id token3 }
        addTransfer s7 e fromOwner toOwner token3
    else
      addTransfer s4 e fromOwner toOwner token1
  | none =>
    addTransfer s4 e fromOwner toOwner token1

/-- The whole reconciliation loop in batch order. -/
def processEvents (cfg : Config) (s : SaveState) (arr : List ENSData) :
    SaveState :=
  arr.foldl (processEvent cfg) s

/-- The token-id strings mentioned by the batch (the `tokensIds` set is
only ever used for membership, so the unde-duplicated list is faithful). -/
def tokensIds (arr : List ENSData) : List String :=
  arr.map (fun e => toString e.tokenId)

/-- The lowercased owner addresses mentioned by the batch (`ownersIds`). -/
def ownersIds (arr : List ENSData) : List String :=
  arr.foldl (fun acc e =>
    acc ++ (if truthy e.fromAddr then [lower (orEmpty e.fromAddr)] else [])
        ++ (if truthy e.toAddr then [lower (orEmpty e.toAddr)] else [])) []

/-- A preloaded token row materialized as an in-memory `Token`; the row's
owner foreign key is materialized as an `Owner` object with its own
allocation tag. -/
def tokenOfRow (r : TokenRow) (alloc : Nat) : Token :=
  { id := r.id,
    owner := r.owner.map (fun oid => { id := oid, alloc := alloc + 1 }),
    name := r.name, imageURI := r.imageURI, uri := r.uri,
    expires := r.expires, contract := r.contract, alloc := alloc }

/-- Bulk pre-fetch of the token working map:
`new Map((await ctx.store.findBy(Token, { id: In([...tokensIds]) })).map(t => [t.id, t]))`.
Each materialized object consumes two allocation tags (token and owner
reference). -/
def preloadTokens (st : Store) (ids : List String) (alloc0 : Nat) :
    List (String × Token) × Nat :=
  let rows := st.tokens.filter (fun r => ids.contains r.id)
  (mkMap ((rows.enum).map
    (fun p => (p.2.id, tokenOfRow p.2 (alloc0 + 2 * p.1)))),
   alloc0 + 2 * rows.length)

/-- Bulk pre-fetch of the owner working map:
`new Map((await ctx.store.findBy(Owner, { id: In([...ownersIds]) })).map(o => [o.id, o]))`. -/
def preloadOwners (st : Store) (ids : List String) (alloc0 : Nat) :
    List (String × Owner) × Nat :=
  let rows := st.owners.filter (fun r => ids.contains r.id)
  (mkMap ((rows.enum).map
    (fun p => (p.2.id, ({ id := p.2.id, alloc := alloc0 + p.1 } : Owner)))),
   alloc0 + rows.length)

/-- Projection of an in-memory owner to its persisted row. -/
def Owner.toRow (o : Owner) : OwnerRow := { id := o.id }

/-- Projection of an in-memory token to its persisted row (references
stored by id). -/
def Token.toRow (t : Token) : TokenRow :=
  { id := t.id, owner := t.owner.map Owner.id, name := t.name,
    imageURI := t.imageURI, uri := t.uri, expires := t.expires,
    contract := t.contract }

/-- Projection of an in-memory transfer to its persisted row. -/
def Transfer.toRow (tr : Transfer) : TransferRow :=
  { id := tr.id, block := tr.block, timestamp := tr.timestamp,
    transactionHash := tr.transactionHash, fromId := tr.fromId,
    toId := tr.toId, tokenId := tr.tokenId }

/--
`async function saveENSData(ctx, ensDataArr)`: collect the referenced
identities, bulk pre-fetch the owner and token working maps, run the
reconciliation loop in batch order, then persist the three working sets —
owners, then tokens, then transfers.  `cache` is the process-wide contract
singleton cache at entry.
-/
def saveENSData (cfg : Config) (st : Store) (cache : Option GoodContract)
    (ensDataArr : List ENSData) : SaveState :=
  let pT := preloadTokens st (tokensIds ensDataArr) 0
  let pO := preloadOwners st (ownersIds ensDataArr) pT.2
  let s0 : SaveState :=
    { store := st, cache := cache, owners := pO.1, tokens := pT.1,
      transfers := [], nextAlloc := pO.2, enrichCalls := [],
      writeLog := [] }
  let s1 := processEvents cfg s0 ensDataArr
  -- await ctx.store.save([...owners.values()]);
  -- await ctx.store.save([...tokens.values()]);
  -- await ctx.store.save([...transfers]);
  { s1 with
      store := { s1.store with
                   owners := upsertAllBy OwnerRow.id s1.store.owners
                     (s1.owners.map (fun p => p.2.toRow)),
                   tokens := upsertAllBy TokenRow.id s1.store.tokens
                     (s1.tokens.map (fun p => p.2.toRow)),
                   transfers := upsertAllBy TransferRow.id s1.store.transfers
                     (s1.transfers.map Transfer.toRow) },
      writeLog := s1.writeLog ++
        [WriteKind.saveOwners, WriteKind.saveTokens, WriteKind.saveTransfers] }

/-- `handleTransfer`: decode `{from, to, tokenId}` and build the
normalized record with the synthetic id
`` `${transaction.hash}-${evmLog.address}-${tokenId}-${evmLog.index}` ``. -/
def handleTransfer (txHash : String) (logAddress : String) (logIndex : Nat)
    (blockTimestamp : Nat) (blockHeight : Nat)
    (fromAddr toAddr : String) (tokenId : Nat) : ENSData :=
  { id := txHash ++ "-" ++ logAddress ++ "-" ++ toString tokenId ++ "-" ++
      toString logIndex,
    fromAddr := some fromAddr, toAddr := some toAddr, tokenId := tokenId,
    timestamp := blockTimestamp, expires := none, block := blockHeight,
    transactionHash := txHash }

/-- `handleNameRegistered`: decode `{id, owner, expires}`. -/
def handleNameRegistered (txHash : String) (logAddress : String)
    (logIndex : Nat) (blockTimestamp : Nat) (blockHeight : Nat)
    (owner : String) (tokenId : Nat) (expires : Nat) : ENSData :=
  { id := txHash ++ "-" ++ logAddress ++ "-" ++ toString tokenId ++ "-" ++
      toString logIndex,
    fromAddr := none, toAddr := some owner, tokenId := tokenId,
    timestamp := blockTimestamp, expires := some expires,
    block := blockHeight, transactionHash := txHash }

/-- `handleNameRenewed`: decode `{id, expires}`. -/
def handleNameRenewed (txHash : String) (logAddress : String)
    (logIndex : Nat) (blockTimestamp : Nat) (blockHeight : Nat)
    (tokenId : Nat) (expires : Nat) : ENSData :=
  { id := txHash ++ "-" ++ logAddress ++ "-" ++ toString tokenId ++ "-" ++
      toString logIndex,
    fromAddr := none, toAddr := none, tokenId := tokenId,
    timestamp := blockTimestamp, expires := some expires,
    block := blockHeight, transactionHash := txHash }

/-! ## Basic lemmas about lower-casing and the collection models -/

theorem toNat_ofNat_of_valid {n : Nat} (h : n.isValidChar) :
    (Char.ofNat n).toNat = n := by
  rw [Char.ofNat, dif_pos h]
  rfl

theorem lowerChar_idem (c : Char) : lowerChar (lowerChar c) = lowerChar c := by
  show Char.toLower (Char.toLower c) = Char.toLower c
  unfold Char.toLower
  by_cases h : c.toNat ≥ 65 ∧ c.toNat ≤ 90
  · rw [if_pos h]
    have hv : (c.toNat + 32).isValidChar := Or.inl (by omega)
    have ht : (Char.ofNat (c.toNat + 32)).toNat = c.toNat + 32 :=
      toNat_ofNat_of_valid hv
    rw [if_neg]
    rw [ht]
    omega
  · rw [if_neg h, if_neg h]

theorem lower_data (s : String) :
    (lower s).data = s.data.map lowerChar := rfl

/-- `lower` is exactly the library's `String.toLower`. -/
theorem lower_eq_toLower (s : String) : lower s = s.toLower := by
  rw [String.toLower, String.map_eq]
  rfl

theorem lower_idem (s : String) : lower (lower s) = lower s := by
  apply String.ext
  rw [lower_data, lower_data, List.map_map]
  apply List.map_congr_left
  intro c _
  exact lowerChar_idem c

theorem lower_ne_empty {s : String} (h : s ≠ "") : lower s ≠ "" := by
  intro hc
  apply h
  apply String.ext
  have h2 : (lower s).data = [] := by rw [hc]
  rw [lower_data] at h2
  show s.data = "".data
  exact List.map_eq_nil_iff.mp h2

theorem mget_nil {α : Type} (k : String) : mget ([] : List (String × α)) k = none := rfl

theorem mget_mset_self {α : Type} (m : List (String × α)) (k : String) (v : α) :
    mget (mset m k v) k = some v := by
  unfold mget mset
  split
  case isTrue h =>
    rw [List.find?_map]
    have hcomp :
        ((fun (p : String × α) => p.1 == k) ∘
          (fun p => if p.1 == k then (k, v) else p)) =
        fun (p : String × α) => p.1 == k := by
      funext p
      by_cases hp : p.1 = k <;> simp [hp]
    rw [hcomp]
    obtain ⟨q, hq⟩ := Option.isSome_iff_exists.mp h
    rw [hq]
    have hqk : q.1 = k := by simpa using List.find?_some hq
    simp [hqk]
  case isFalse h =>
    have hnone : m.find? (fun p => p.1 == k) = none :=
      Option.not_isSome_iff_eq_none.mp h
    rw [List.find?_append, hnone]
    simp

theorem mget_mset_ne {α : Type} (m : List (String × α)) (k k' : String)
    (v : α) (h : k' ≠ k) : mget (mset m k v) k' = mget m k' := by
  unfold mget mset
  split
  case isTrue hs =>
    rw [List.find?_map]
    have hcomp :
        ((fun (p : String × α) => p.1 == k') ∘
          (fun p => if p.1 == k then (k, v) else p)) =
        fun (p : String × α) => p.1 == k' := by
      funext p
      by_cases hp : p.1 = k
      · simp [hp, (by simpa using h.symm : ¬ (k = k'))]
      · simp [hp]
    rw [hcomp]
    cases hf : m.find? (fun p => p.1 == k') with
    | none => simp
    | some q =>
      have hq1 : q.1 = k' := by simpa using List.find?_some hf
      simp [hq1, h]
  case isFalse hs =>
    rw [List.find?_append]
    cases hf : m.find? (fun p => p.1 == k') with
    | none => simp [(by simpa using h.symm : ¬ (k = k'))]
    | some q => simp

theorem mem_mset {α : Type} {m : List (String × α)} {k : String} {v : α}
    {p : String × α} (h : p ∈ mset m k v) : p ∈ m ∨ p = (k, v) := by
  unfold mset at h
  split at h
  · obtain ⟨q, hq, hfq⟩ := List.mem_map.mp h
    by_cases hqk : q.1 == k
    · right; rw [← hfq]; simp [hqk]
    · left; rw [← hfq]; simp only [hqk]; simpa using hq
  · rcases List.mem_append.mp h with h1 | h1
    · left; exact h1
    · right; simpa using h1

theorem mset_forall {α : Type} {P : String × α → Prop}
    {m : List (String × α)} {k : String} {v : α}
    (hm : ∀ p ∈ m, P p) (hv : P (k, v)) : ∀ p ∈ mset m k v, P p := by
  intro p hp
  rcases mem_mset hp with h1 | h1
  · exact hm p h1
  · rw [h1]; exact hv

theorem foldl_mset_forall {α : Type} {P : String × α → Prop} :
    ∀ (entries : List (String × α)) (acc : List (String × α)),
      (∀ p ∈ acc, P p) → (∀ p ∈ entries, P p) →
      ∀ p ∈ entries.foldl (fun m q => mset m q.1 q.2) acc, P p := by
  intro entries
  induction entries with
  | nil => intro acc ha _ p hp; exact ha p hp
  | cons q rest ih =>
    intro acc ha he p hp
    refine ih (mset acc q.1 q.2) ?_ ?_ p hp
    · exact mset_forall ha (he q (by simp))
    · intro r hr; exact he r (by simp [hr])

theorem mkMap_forall {α : Type} {P : String × α → Prop}
    {entries : List (String × α)} (h : ∀ p ∈ entries, P p) :
    ∀ p ∈ mkMap entries, P p :=
  foldl_mset_forall entries [] (by intro p hp; cases hp) h

theorem mget_eq_none_of_forall {α : Type} {m : List (String × α)}
    {k : String} (h : ∀ p ∈ m, p.1 ≠ k) : mget m k = none := by
  unfold mget
  have : m.find? (fun p => p.1 == k) = none := by
    rw [List.find?_eq_none]
    intro p hp
    simpa using h p hp
  rw [this]
  rfl

theorem mget_some_mem {α : Type} {m : List (String × α)} {k : String}
    {v : α} (h : mget m k = some v) : (k, v) ∈ m := by
  unfold mget at h
  cases hf : m.find? (fun p => p.1 == k) with
  | none => rw [hf] at h; cases h
  | some q =>
    rw [hf] at h
    have hq1 : q.1 = k := by simpa using List.find?_some hf
    have hq2 : q.2 = v := by simpa using h
    have : q ∈ m := List.mem_of_find?_eq_some hf
    rwa [← hq1, ← hq2]

/-! ## Well-formedness of the working maps -/

/-- An owner-map entry is well-formed when the object's id is the key, the
key is already lower-case, and the key is non-empty. -/
def ownerEntryWF (p : String × Owner) : Prop :=
  p.2.id = p.1 ∧ lower p.1 = p.1 ∧ p.1 ≠ ""

instance (p : String × Owner) : Decidable (ownerEntryWF p) := by
  unfold ownerEntryWF; infer_instance

/-- Every entry of the owner working map is well-formed. -/
def ownersWF (m : List (String × Owner)) : Prop :=
  ∀ p ∈ m, ownerEntryWF p

instance (m : List (String × Owner)) : Decidable (ownersWF m) :=
  List.decidableBAll _ m

/-- Every entry of the token working map stores a token whose id is the
key. -/
def tokensWF (m : List (String × Token)) : Prop :=
  ∀ p ∈ m, p.2.id = p.1

instance (m : List (String × Token)) : Decidable (tokensWF m) :=
  List.decidableBAll _ m

/-- Working-map well-formedness of a whole state. -/
def SaveState.WF (s : SaveState) : Prop :=
  ownersWF s.owners ∧ tokensWF s.tokens

instance (s : SaveState) : Decidable s.WF := by
  unfold SaveState.WF; infer_instance

/-! ## Lemmas about the resolution steps -/

theorem resolveOwner_frame (s : SaveState) (addr : Option String) :
    (resolveOwner s addr).2.tokens = s.tokens ∧
    (resolveOwner s addr).2.transfers = s.transfers ∧
    (resolveOwner s addr).2.store = s.store ∧
    (resolveOwner s addr).2.cache = s.cache ∧
    (resolveOwner s addr).2.enrichCalls = s.enrichCalls ∧
    (resolveOwner s addr).2.writeLog = s.writeLog := by
  simp only [resolveOwner]
  split <;> exact ⟨rfl, rfl, rfl, rfl, rfl, rfl⟩

theorem resolveOwner_WF {s : SaveState} (addr : Option String)
    (h : ownersWF s.owners) : ownersWF (resolveOwner s addr).2.owners := by
  simp only [resolveOwner]
  split
  case isTrue hc =>
    refine mset_forall h ?_
    refine ⟨rfl, lower_idem _, ?_⟩
    have : orEmpty addr ≠ "" := by
      rcases hc with ⟨ht, _⟩
      cases addr with
      | none => simp [truthy] at ht
      | some a => simpa [truthy, orEmpty] using ht
    exact lower_ne_empty this
  case isFalse => exact h

/-- Under well-formedness the resolved owner is `some` exactly on a truthy
address, and then its id is the lower-cased address. -/
theorem resolveOwner_fst_id {s : SaveState} (addr : Option String)
    (h : ownersWF s.owners) :
    ((resolveOwner s addr).1).map Owner.id =
      if truthy addr then some (lower (orEmpty addr)) else none := by
  simp only [resolveOwner]
  split
  case isTrue hc =>
    rw [if_pos hc.1]
    rfl
  case isFalse hc =>
    by_cases ht : truthy addr
    · rw [if_pos ht]
      cases hm : mget s.owners (orEmpty addr) with
      | none => exact absurd ⟨ht, hm⟩ hc
      | some o =>
        have hmem := mget_some_mem hm
        have hwf := h _ hmem
        rcases hwf with ⟨hid, hlow, _⟩
        simp only [hm, Option.map_some']
        rw [hid, hlow]
    · rw [if_neg ht]
      have hkey : orEmpty addr = "" := by
        cases addr with
        | none => rfl
        | some a => simpa [truthy, orEmpty] using ht
      have hnone : mget s.owners (orEmpty addr) = none := by
        rw [hkey]
        refine mget_eq_none_of_forall ?_
        intro p hp
        exact (h p hp).2.2
      simp [hnone]

theorem getOrCreateContractEntity_owners (s : SaveState) :
    (getOrCreateContractEntity s).2.owners = s.owners := by
  simp only [getOrCreateContractEntity]
  split
  · rfl
  · split <;> rfl

theorem getOrCreateContractEntity_tokens (s : SaveState) :
    (getOrCreateContractEntity s).2.tokens = s.tokens := by
  simp only [getOrCreateContractEntity]
  split
  · rfl
  · split <;> rfl

theorem getOrCreateContractEntity_transfers (s : SaveState) :
    (getOrCreateContractEntity s).2.transfers = s.transfers := by
  simp only [getOrCreateContractEntity]
  split
  · rfl
  · split <;> rfl

theorem getOrCreateContractEntity_nextAlloc (s : SaveState) :
    (getOrCreateContractEntity s).2.nextAlloc = s.nextAlloc := by
  simp only [getOrCreateContractEntity]
  split
  · rfl
  · split <;> rfl

theorem getOrCreateContractEntity_enrichCalls (s : SaveState) :
    (getOrCreateContractEntity s).2.enrichCalls = s.enrichCalls := by
  simp only [getOrCreateContractEntity]
  split
  · rfl
  · split <;> rfl

theorem resolveToken_owners (s : SaveState) (tid : Nat) :
    (resolveToken s tid).2.owners = s.owners := by
  simp only [resolveToken]
  split
  · rfl
  · exact getOrCreateContractEntity_owners s

theorem resolveToken_transfers (s : SaveState) (tid : Nat) :
    (resolveToken s tid).2.transfers = s.transfers := by
  simp only [resolveToken]
  split
  · rfl
  · exact getOrCreateContractEntity_transfers s

theorem resolveToken_enrichCalls (s : SaveState) (tid : Nat) :
    (resolveToken s tid).2.enrichCalls = s.enrichCalls := by
  simp only [resolveToken]
  split
  · rfl
  · exact getOrCreateContractEntity_enrichCalls s

theorem resolveToken_WF {s : SaveState} (tid : Nat)
    (h : tokensWF s.tokens) : tokensWF (resolveToken s tid).2.tokens := by
  simp only [resolveToken]
  split
  · exact h
  · rw [getOrCreateContractEntity_tokens]
    exact mset_forall h rfl

/-- The resolved token's id is always the decimal token-id string. -/
theorem resolveToken_fst_id {s : SaveState} (tid : Nat)
    (h : tokensWF s.tokens) :
    (resolveToken s tid).1.id = toString tid := by
  simp only [resolveToken]
  cases hm : mget s.tokens (toString tid) with
  | none => simp [hm]
  | some t =>
    have := h _ (mget_some_mem hm)
    simp [hm]
    exact this

/-! ## Pure characterizations of the loop's effects -/

/-- The persisted transfer row the loop produces for an event that passes
the `if (toOwner && fromOwner)` guard. -/
def eventTransferRow (e : ENSData) : TransferRow :=
  { id := e.id, block := e.block, timestamp := e.timestamp,
    transactionHash := e.transactionHash,
    fromId := lower (orEmpty e.fromAddr), toId := lower (orEmpty e.toAddr),
    tokenId := toString e.tokenId }

/-- Does the expiration branch `continue` past the rest of the loop body
(a truthy expiration lying strictly in the past)? -/
def expiredSkip (cfg : Config) (e : ENSData) : Bool :=
  match e.expires with
  | some n => decide (n ≠ 0) && decide (n * 1000 < cfg.now)
  | none => false

/-- The transfer row (if any) that event `e` contributes to the batch's
transfer set. -/
def transferRowOf (cfg : Config) (e : ENSData) : Option TransferRow :=
  if truthy e.fromAddr && truthy e.toAddr && !expiredSkip cfg e then
    some (eventTransferRow e)
  else none

theorem resolveOwner_isSome {s : SaveState} (addr : Option String)
    (h : ownersWF s.owners) :
    ((resolveOwner s addr).1).isSome = truthy addr := by
  have hid := resolveOwner_fst_id addr h
  by_cases ht : truthy addr
  · rw [if_pos ht] at hid
    rcases ho : (resolveOwner s addr).1 with _ | o
    · rw [ho] at hid; cases hid
    · simp [ht]
  · rw [if_neg ht] at hid
    rcases ho : (resolveOwner s addr).1 with _ | o
    · simp [Bool.eq_false_iff.mpr ht]
    · rw [ho] at hid; cases hid

theorem addTransfer_transfers_toRow (s : SaveState) (e : ENSData)
    (fo tw : Option Owner) (tok : Token)
    (hfo : fo.map Owner.id =
      if truthy e.fromAddr then some (lower (orEmpty e.fromAddr)) else none)
    (hto : tw.map Owner.id =
      if truthy e.toAddr then some (lower (orEmpty e.toAddr)) else none)
    (htok : tok.id = toString e.tokenId) :
    (addTransfer s e fo tw tok).transfers.map Transfer.toRow =
      s.transfers.map Transfer.toRow ++
        (if truthy e.fromAddr && truthy e.toAddr
         then [eventTransferRow e] else []) := by
  rcases fo with _ | f
  · have hf : truthy e.fromAddr = false := by
      by_contra hc
      rw [if_pos (by revert hc; cases truthy e.fromAddr <;> simp)] at hfo
      cases hfo
    rcases tw with _ | t <;>
      simp [addTransfer, hf]
  · have hf : truthy e.fromAddr = true := by
      by_contra hc
      rw [if_neg (by revert hc; cases truthy e.fromAddr <;> simp)] at hfo
      cases hfo
    rcases tw with _ | t
    · have ht : truthy e.toAddr = false := by
        by_contra hc
        rw [if_pos (by revert hc; cases truthy e.toAddr <;> simp)] at hto
        cases hto
      simp [addTransfer, ht]
    · have ht : truthy e.toAddr = true := by
        by_contra hc
        rw [if_neg (by revert hc; cases truthy e.toAddr <;> simp)] at hto
        cases hto
      rw [if_pos hf] at hfo
      rw [if_pos ht] at hto
      simp only [Option.map_some', Option.some.injEq] at hfo hto
      simp [addTransfer, hf, ht, Transfer.toRow, eventTransferRow, hfo, hto,
        htok]

theorem transferRowOf_toList (cfg : Config) (e : ENSData)
    (hskip : expiredSkip cfg e = false) :
    (transferRowOf cfg e).toList =
      if truthy e.fromAddr && truthy e.toAddr
      then [eventTransferRow e] else [] := by
  unfold transferRowOf
  rw [hskip]
  by_cases hft : (truthy e.fromAddr && truthy e.toAddr) = true
  · simp [hft]
  · simp [hft]

theorem processEvent_transfers_toRow (cfg : Config) {s : SaveState}
    (e : ENSData) (hWF : s.WF) :
    (processEvent cfg s e).transfers.map Transfer.toRow =
      s.transfers.map Transfer.toRow ++ (transferRowOf cfg e).toList := by
  obtain ⟨hO, hT⟩ := hWF
  have hfo := resolveOwner_fst_id e.fromAddr hO
  have hO1 := resolveOwner_WF e.fromAddr (s := s) hO
  have hto := resolveOwner_fst_id e.toAddr hO1
  have htoks2 :
      (resolveOwner (resolveOwner s e.fromAddr).2 e.toAddr).2.tokens =
        s.tokens := by
    rw [(resolveOwner_frame _ _).1, (resolveOwner_frame _ _).1]
  have hT2 : tokensWF
      (resolveOwner (resolveOwner s e.fromAddr).2 e.toAddr).2.tokens := by
    rw [htoks2]; exact hT
  have htokid := resolveToken_fst_id e.tokenId hT2
  have htr3 :
      (resolveToken (resolveOwner (resolveOwner s e.fromAddr).2 e.toAddr).2
        e.tokenId).2.transfers = s.transfers := by
    rw [resolveToken_transfers, (resolveOwner_frame _ _).2.1,
      (resolveOwner_frame _ _).2.1]
  simp only [processEvent]
  rcases hexp : e.expires with _ | n
  · dsimp only
    rw [addTransfer_transfers_toRow _ _ _ _ _ hfo hto,
      transferRowOf_toList cfg e (by simp [expiredSkip, hexp])]
    · dsimp only
      rw [htr3]
    · exact htokid
  · dsimp only
    by_cases hn : n = 0
    · rw [if_neg (by omega)]
      rw [addTransfer_transfers_toRow _ _ _ _ _ hfo hto,
        transferRowOf_toList cfg e (by simp [expiredSkip, hexp, hn])]
      · dsimp only
        rw [htr3]
      · exact htokid
    · rw [if_pos hn]
      by_cases hlt : n * 1000 < cfg.now
      · rw [if_pos hlt]
        have hskip : (transferRowOf cfg e) = none := by
          simp [transferRowOf, expiredSkip, hexp, hn, hlt]
        rw [hskip]
        dsimp only
        rw [htr3]
        simp
      · rw [if_neg hlt]
        rw [addTransfer_transfers_toRow _ _ _ _ _ hfo hto,
          transferRowOf_toList cfg e (by simp [expiredSkip, hexp, hn, hlt])]
        · dsimp only
          rw [htr3]
        · exact htokid

theorem addTransfer_owners (s : SaveState) (e : ENSData)
    (fo tw : Option Owner) (tok : Token) :
    (addTransfer s e fo tw tok).owners = s.owners := by
  unfold addTransfer; split <;> rfl

theorem addTransfer_tokens (s : SaveState) (e : ENSData)
    (fo tw : Option Owner) (tok : Token) :
    (addTransfer s e fo tw tok).tokens = s.tokens := by
  unfold addTransfer; split <;> rfl

theorem addTransfer_store (s : SaveState) (e : ENSData)
    (fo tw : Option Owner) (tok : Token) :
    (addTransfer s e fo tw tok).store = s.store := by
  unfold addTransfer; split <;> rfl

theorem addTransfer_cache (s : SaveState) (e : ENSData)
    (fo tw : Option Owner) (tok : Token) :
    (addTransfer s e fo tw tok).cache = s.cache := by
  unfold addTransfer; split <;> rfl

theorem addTransfer_writeLog (s : SaveState) (e : ENSData)
    (fo tw : Option Owner) (tok : Token) :
    (addTransfer s e fo tw tok).writeLog = s.writeLog := by
  unfold addTransfer; split <;> rfl

theorem addTransfer_enrichCalls (s : SaveState) (e : ENSData)
    (fo tw : Option Owner) (tok : Token) :
    (addTransfer s e fo tw tok).enrichCalls = s.enrichCalls := by
  unfold addTransfer; split <;> rfl

theorem processEvent_owners (cfg : Config) (s : SaveState) (e : ENSData) :
    (processEvent cfg s e).owners =
      (resolveOwner (resolveOwner s e.fromAddr).2 e.toAddr).2.owners := by
  have h3 := resolveToken_owners
    (resolveOwner (resolveOwner s e.fromAddr).2 e.toAddr).2 e.tokenId
  simp only [processEvent]
  rcases e.expires with _ | n
  · dsimp only
    rw [addTransfer_owners]
    exact h3
  · dsimp only
    by_cases hn : n = 0
    · rw [if_neg (by omega)]
      rw [addTransfer_owners]
      exact h3
    · rw [if_pos hn]
      by_cases hlt : n * 1000 < cfg.now
      · rw [if_pos hlt]
        exact h3
      · rw [if_neg hlt]
        rw [addTransfer_owners]
        exact h3

theorem processEvent_WF (cfg : Config) {s : SaveState} (e : ENSData)
    (h : s.WF) : (processEvent cfg s e).WF := by
  obtain ⟨hO, hT⟩ := h
  have hO2 : ownersWF
      (resolveOwner (resolveOwner s e.fromAddr).2 e.toAddr).2.owners :=
    resolveOwner_WF _ (resolveOwner_WF _ hO)
  have hT2 : tokensWF
      (resolveOwner (resolveOwner s e.fromAddr).2 e.toAddr).2.tokens := by
    rw [(resolveOwner_frame _ _).1, (resolveOwner_frame _ _).1]; exact hT
  have hT3 : tokensWF
      (resolveToken (resolveOwner (resolveOwner s e.fromAddr).2 e.toAddr).2
        e.tokenId).2.tokens :=
    resolveToken_WF _ hT2
  constructor
  · rw [processEvent_owners]
    exact hO2
  · simp only [processEvent]
    rcases e.expires with _ | n
    · dsimp only
      rw [addTransfer_tokens]
      exact mset_forall hT3 rfl
    · dsimp only
      by_cases hn : n = 0
      · rw [if_neg (by omega)]
        rw [addTransfer_tokens]
        exact mset_forall hT3 rfl
      · rw [if_pos hn]
        by_cases hlt : n * 1000 < cfg.now
        · rw [if_pos hlt]
          exact mset_forall (mset_forall hT3 rfl) rfl
        · rw [if_neg hlt]
          rw [addTransfer_tokens]
          exact mset_forall (mset_forall (mset_forall hT3 rfl) rfl) rfl

/-! ## Write-log structure and batch-level folds -/

/-- Is a write one of the two contract-singleton inserts? -/
def WriteKind.isContractInsert : WriteKind → Bool
  | WriteKind.insertGoodContract => true
  | WriteKind.insertBadContract => true
  | _ => false

/-- A write log consisting solely of contract-singleton inserts. -/
def allInserts (l : List WriteKind) : Prop :=
  ∀ w ∈ l, w.isContractInsert = true

theorem getOrCreateContractEntity_writeLog_allInserts {s : SaveState}
    (h : allInserts s.writeLog) :
    allInserts (getOrCreateContractEntity s).2.writeLog := by
  simp only [getOrCreateContractEntity]
  split
  · exact h
  · split
    · exact h
    · intro w hw
      rcases List.mem_append.mp hw with h1 | h1
      · exact h w h1
      · simp only [List.mem_cons, List.not_mem_nil, or_false] at h1
        rcases h1 with rfl | rfl <;> rfl

theorem resolveToken_writeLog_allInserts {s : SaveState} (tid : Nat)
    (h : allInserts s.writeLog) :
    allInserts (resolveToken s tid).2.writeLog := by
  simp only [resolveToken]
  split
  · exact h
  · exact getOrCreateContractEntity_writeLog_allInserts h

theorem processEvent_writeLog_allInserts (cfg : Config) {s : SaveState}
    (e : ENSData) (h : allInserts s.writeLog) :
    allInserts (processEvent cfg s e).writeLog := by
  have h1 : allInserts (resolveOwner s e.fromAddr).2.writeLog := by
    rw [(resolveOwner_frame _ _).2.2.2.2.2]; exact h
  have h2 : allInserts
      (resolveOwner (resolveOwner s e.fromAddr).2 e.toAddr).2.writeLog := by
    rw [(resolveOwner_frame _ _).2.2.2.2.2]; exact h1
  have h3 := resolveToken_writeLog_allInserts e.tokenId h2
  simp only [processEvent]
  rcases e.expires with _ | n
  · dsimp only
    rw [addTransfer_writeLog]
    exact h3
  · dsimp only
    by_cases hn : n = 0
    · rw [if_neg (by omega)]
      rw [addTransfer_writeLog]
      exact h3
    · rw [if_pos hn]
      by_cases hlt : n * 1000 < cfg.now
      · rw [if_pos hlt]
        exact h3
      · rw [if_neg hlt]
        rw [addTransfer_writeLog]
        exact h3

theorem processEvents_writeLog_allInserts (cfg : Config) :
    ∀ (arr : List ENSData) (s : SaveState), allInserts s.writeLog →
      allInserts (processEvents cfg s arr).writeLog := by
  intro arr
  induction arr with
  | nil => intro s h; exact h
  | cons e rest ih =>
    intro s h
    exact ih (processEvent cfg s e) (processEvent_writeLog_allInserts cfg e h)

theorem processEvents_WF (cfg : Config) :
    ∀ (arr : List ENSData) (s : SaveState), s.WF →
      (processEvents cfg s arr).WF := by
  intro arr
  induction arr with
  | nil => intro s h; exact h
  | cons e rest ih =>
    intro s h
    exact ih (processEvent cfg s e) (processEvent_WF cfg e h)

theorem processEvents_transfers_toRow (cfg : Config) :
    ∀ (arr : List ENSData) (s : SaveState), s.WF →
      (processEvents cfg s arr).transfers.map Transfer.toRow =
        s.transfers.map Transfer.toRow ++ arr.filterMap (transferRowOf cfg) := by
  intro arr
  induction arr with
  | nil => intro s _; simp [processEvents]
  | cons e rest ih =>
    intro s h
    have hstep := processEvent_transfers_toRow cfg e h
    have := ih (processEvent cfg s e) (processEvent_WF cfg e h)
    show (processEvents cfg (processEvent cfg s e) rest).transfers.map
        Transfer.toRow = _
    rw [this, hstep]
    rcases hrow : transferRowOf cfg e with _ | row
    · rw [List.filterMap_cons_none hrow]
      simp
    · rw [List.filterMap_cons_some hrow]
      simp

/-! ## Well-formedness of the preloaded maps -/

theorem truthy_orEmpty_ne {x : Option String} (h : truthy x = true) :
    orEmpty x ≠ "" := by
  cases x with
  | none => simp [truthy] at h
  | some a => simpa [truthy, orEmpty] using h

theorem ownersIds_forall (arr : List ENSData) :
    ∀ k ∈ ownersIds arr, lower k = k ∧ k ≠ "" := by
  unfold ownersIds
  suffices h : ∀ (l : List ENSData) (acc : List String),
      (∀ k ∈ acc, lower k = k ∧ k ≠ "") →
      ∀ k ∈ l.foldl (fun acc e =>
        acc ++ (if truthy e.fromAddr then [lower (orEmpty e.fromAddr)] else [])
            ++ (if truthy e.toAddr then [lower (orEmpty e.toAddr)] else []))
        acc, lower k = k ∧ k ≠ "" by
    exact h arr [] (by intro k hk; cases hk)
  intro l
  induction l with
  | nil => intro acc h; exact h
  | cons e rest ih =>
    intro acc h
    apply ih
    intro k hk
    rcases List.mem_append.mp hk with h1 | h1
    · rcases List.mem_append.mp h1 with h2 | h2
      · exact h k h2
      · by_cases ht : truthy e.fromAddr
        · rw [if_pos ht] at h2
          have : k = lower (orEmpty e.fromAddr) := by simpa using h2
          subst this
          exact ⟨lower_idem _, lower_ne_empty (truthy_orEmpty_ne ht)⟩
        · rw [if_neg ht] at h2
          cases h2
    · by_cases ht : truthy e.toAddr
      · rw [if_pos ht] at h1
        have : k = lower (orEmpty e.toAddr) := by simpa using h1
        subst this
        exact ⟨lower_idem _, lower_ne_empty (truthy_orEmpty_ne ht)⟩
      · rw [if_neg ht] at h1
        cases h1

theorem preloadOwners_WF (st : Store) (arr : List ENSData) (a0 : Nat) :
    ownersWF (preloadOwners st (ownersIds arr) a0).1 := by
  unfold preloadOwners
  apply mkMap_forall
  intro p hp
  obtain ⟨q, hq, hpq⟩ := List.mem_map.mp hp
  have hrow : q.2 ∈ st.owners.filter
      (fun r => (ownersIds arr).contains r.id) := by
    have hget := List.mem_enum_iff_getElem?.mp hq
    exact List.getElem?_mem hget
  have hid : q.2.id ∈ ownersIds arr := by
    have := (List.mem_filter.mp hrow).2
    simpa [List.elem_iff] using this
  obtain ⟨hlow, hne⟩ := ownersIds_forall arr _ hid
  rw [← hpq]
  exact ⟨rfl, hlow, hne⟩

theorem preloadTokens_WF (st : Store) (ids : List String) (a0 : Nat) :
    tokensWF (preloadTokens st ids a0).1 := by
  unfold preloadTokens
  apply mkMap_forall
  intro p hp
  obtain ⟨q, _, hpq⟩ := List.mem_map.mp hp
  rw [← hpq]
  rfl

/-- The initial working state of one `saveENSData` run is well-formed. -/
theorem saveENSData_transfers_toRow (cfg : Config) (st : Store)
    (cache : Option GoodContract) (arr : List ENSData) :
    (saveENSData cfg st cache arr).transfers.map Transfer.toRow =
      arr.filterMap (transferRowOf cfg) := by
  simp only [saveENSData]
  rw [processEvents_transfers_toRow cfg arr _
    ⟨preloadOwners_WF st arr _, preloadTokens_WF st _ _⟩]
  simp

theorem addTransfer_congr (s : SaveState) (e e' : ENSData)
    (fo tw : Option Owner) (tok : Token) (h1 : e.id = e'.id)
    (h2 : e.block = e'.block) (h3 : e.timestamp = e'.timestamp)
    (h4 : e.transactionHash = e'.transactionHash) :
    addTransfer s e fo tw tok = addTransfer s e' fo tw tok := by
  unfold addTransfer
  split
  · rw [h1, h2, h3, h4]
  · rfl

theorem appended_saves_filter (L : List WriteKind) (h : allInserts L) :
    L ++ [WriteKind.saveOwners, WriteKind.saveTokens,
          WriteKind.saveTransfers] =
      (L ++ [WriteKind.saveOwners, WriteKind.saveTokens,
             WriteKind.saveTransfers]).filter WriteKind.isContractInsert ++
      [WriteKind.saveOwners, WriteKind.saveTokens,
       WriteKind.saveTransfers] := by
  rw [List.filter_append, List.filter_eq_self.mpr h]
  have hnil : [WriteKind.saveOwners, WriteKind.saveTokens,
      WriteKind.saveTransfers].filter WriteKind.isContractInsert = [] := rfl
  rw [hnil]
  simp

/-! ## Concrete environment shared by the witnesses -/

/-- Wall clock and a metadata oracle that always delivers a full payload. -/
def cfgW : Config :=
  { now := 1700000000000,
    enrich := fun _ =>
      some { image := some "img", name := some "nm", url := some "url" } }

/-- An empty durable store. -/
def storeW : Store :=
  { owners := [], tokens := [], transfers := [], good := [], bad := [] }

/-- An empty working state over the empty store. -/
def stateW : SaveState :=
  { store := storeW, cache := none, owners := [], tokens := [],
    transfers := [], nextAlloc := 0, enrichCalls := [], writeLog := [] }

/-! ## Claim C3 -/

/--
C3: a Transfer row is added to the batch's transfer set if and only if the
event carries both a non-empty `from` and a non-empty `to`; every such
event contributes exactly one row referencing the two resolved owners (by
their lower-cased address ids), and events missing either address
contribute none.  The hypothesis records the shape of the decoders'
output: only `Transfer` logs carry a `from` address, and those carry no
expiration value.
-/
theorem C3_transfer_iff_both_present (cfg : Config) (st : Store)
    (cache : Option GoodContract) (arr : List ENSData)
    (hdec : ∀ e ∈ arr, truthy e.fromAddr = true → e.expires = none) :
    (saveENSData cfg st cache arr).transfers.map Transfer.toRow =
      arr.filterMap (fun e =>
        if truthy e.fromAddr && truthy e.toAddr
        then some (eventTransferRow e) else none) := by
  rw [saveENSData_transfers_toRow]
  apply List.filterMap_congr
  intro e he
  unfold transferRowOf
  by_cases hf : truthy e.fromAddr = true
  · have hskip : expiredSkip cfg e = false := by
      simp [expiredSkip, hdec e he hf]
    rw [hskip]
    simp [hf]
  · have hf' : truthy e.fromAddr = false := Bool.eq_false_iff.mpr hf
    simp [hf']

/-- A three-event batch: a registration (no `from`), a transfer (both
addresses), and a renewal (neither address). -/
def arrW3 : List ENSData :=
  [ { id := "tx-ca-1-0", fromAddr := none, toAddr := some "0xaa",
      tokenId := 1, timestamp := 1, expires := some 9999999999,
      block := 2, transactionHash := "tx" },
    { id := "tx-ca-1-1", fromAddr := some "0xaa", toAddr := some "0xbb",
      tokenId := 1, timestamp := 1, expires := none,
      block := 2, transactionHash := "tx" },
    { id := "tx-ca-1-2", fromAddr := none, toAddr := none,
      tokenId := 1, timestamp := 1, expires := some 9999999999,
      block := 2, transactionHash := "tx" } ]

/-- Witness for C3 on a concrete three-event batch. -/
theorem C3_transfer_iff_both_present_witness :
    (∀ e ∈ arrW3, truthy e.fromAddr = true → e.expires = none) ∧
    (saveENSData cfgW storeW none arrW3).transfers.map Transfer.toRow =
      arrW3.filterMap (fun e =>
        if truthy e.fromAddr && truthy e.toAddr
        then some (eventTransferRow e) else none) :=
  ⟨by decide, C3_transfer_iff_both_present cfgW storeW none arrW3 (by decide)⟩

/-! ## Claim C8 -/

/--
C8: once the contract singleton has been resolved, every later call of
`getOrCreateContractEntity` within the same process returns the cached
instance and leaves the state — the `GoodContract` and `BadContract`
tables included — completely untouched: no second insert ever happens.
-/
theorem C8_contract_singleton_cached (s : SaveState) :
    getOrCreateContractEntity (getOrCreateContractEntity s).2 =
      getOrCreateContractEntity s := by
  rcases hc : s.cache with _ | c
  · rcases hf : s.store.good.find? (fun x => x.id == contractAddress)
      with _ | c
    · simp only [getOrCreateContractEntity, hc, hf]
    · simp only [getOrCreateContractEntity, hc, hf]
  · simp only [getOrCreateContractEntity, hc]

/-! ## Claim C9 -/

/--
C9: the write log of a whole batch run consists of the contract-singleton
inserts made during the loop followed by exactly the three working-set
saves in the fixed order owners, tokens, transfers — in particular the
transfers write is the last store write of the batch, never issued before
the owner and token writes.
-/
theorem C9_write_order (cfg : Config) (st : Store)
    (cache : Option GoodContract) (arr : List ENSData) :
    (saveENSData cfg st cache arr).writeLog =
      (saveENSData cfg st cache arr).writeLog.filter
          WriteKind.isContractInsert ++
        [WriteKind.saveOwners, WriteKind.saveTokens,
         WriteKind.saveTransfers] := by
  simp only [saveENSData]
  exact appended_saves_filter _
    (processEvents_writeLog_allInserts cfg arr _ (by intro w hw; cases hw))

/-! ## Claim C10 -/

/--
C10: an event whose decoded expiration equals 0 is handled exactly like an
event carrying no expiration at all — the token's `expires` field is not
written, no expired-check or enrichment happens, and the loop falls
through to transfer creation, so with both addresses present such an
event still produces its Transfer row.
-/
theorem C10_zero_expiration (cfg : Config) (s : SaveState) (e : ENSData)
    (h : e.expires = some 0) :
    processEvent cfg s e = processEvent cfg s { e with expires := none } ∧
    (s.WF → truthy e.fromAddr = true → truthy e.toAddr = true →
      (processEvent cfg s e).transfers.map Transfer.toRow =
        s.transfers.map Transfer.toRow ++ [eventTransferRow e]) := by
  constructor
  · simp only [processEvent, h]
    rw [if_neg (by omega : ¬ (0 : Nat) ≠ 0)]
    exact addTransfer_congr _ e _ _ _ _ rfl rfl rfl rfl
  · intro hWF hf ht
    rw [processEvent_transfers_toRow cfg e hWF]
    have hrow : transferRowOf cfg e = some (eventTransferRow e) := by
      simp [transferRowOf, expiredSkip, h, hf, ht]
    rw [hrow]
    rfl

/-- A concrete transfer-shaped event whose expiration decodes to 0. -/
def eZeroW : ENSData :=
  { id := "tx-ca-7-0", fromAddr := some "0xaa", toAddr := some "0xbb",
    tokenId := 7, timestamp := 1, expires := some 0, block := 2,
    transactionHash := "tx" }

/-- Witness for C10 at a concrete event with zero expiration. -/
theorem C10_zero_expiration_witness :
    eZeroW.expires = some 0 ∧
    (processEvent cfgW stateW eZeroW =
        processEvent cfgW stateW { eZeroW with expires := none } ∧
      (stateW.WF → truthy eZeroW.fromAddr = true →
        truthy eZeroW.toAddr = true →
        (processEvent cfgW stateW eZeroW).transfers.map Transfer.toRow =
          stateW.transfers.map Transfer.toRow ++ [eventTransferRow eZeroW])) :=
  ⟨rfl, C10_zero_expiration cfgW stateW eZeroW rfl⟩

/-! ## The token map entry written by one event -/

theorem resolveToken_tokens_other (s : SaveState) (tid : Nat) (k : String)
    (hk : k ≠ toString tid) :
    mget (resolveToken s tid).2.tokens k = mget s.tokens k := by
  simp only [resolveToken]
  split
  · rfl
  · rw [getOrCreateContractEntity_tokens, mget_mset_ne _ _ _ _ hk]

/-- After processing an event, the entry of the token working map at the
event's own token key holds a token whose owner is exactly the resolved
`to` owner: `some` of the lower-cased `to` address when `to` is truthy,
and `none` — the cleared owner — otherwise. -/
theorem processEvent_token_owner (cfg : Config) {s : SaveState}
    (e : ENSData) (hWF : s.WF) :
    (mget (processEvent cfg s e).tokens (toString e.tokenId)).map
        (fun t => t.owner.map Owner.id) =
      some (if truthy e.toAddr then some (lower (orEmpty e.toAddr))
            else none) := by
  obtain ⟨hO, hT⟩ := hWF
  have hO1 := resolveOwner_WF e.fromAddr (s := s) hO
  have hto := resolveOwner_fst_id e.toAddr hO1
  have hT2 : tokensWF
      (resolveOwner (resolveOwner s e.fromAddr).2 e.toAddr).2.tokens := by
    rw [(resolveOwner_frame _ _).1, (resolveOwner_frame _ _).1]; exact hT
  have htokid := resolveToken_fst_id e.tokenId hT2
  simp only [processEvent]
  rcases e.expires with _ | n
  · dsimp only
    rw [addTransfer_tokens, htokid, mget_mset_self]
    simp only [Option.map_some']
    exact congrArg some hto
  · dsimp only
    by_cases hn : n = 0
    · rw [if_neg (by omega)]
      rw [addTransfer_tokens, htokid, mget_mset_self]
      simp only [Option.map_some']
      exact congrArg some hto
    · rw [if_pos hn]
      by_cases hlt : n * 1000 < cfg.now
      · rw [if_pos hlt]
        rw [htokid, mget_mset_self]
        simp only [Option.map_some']
        exact congrArg some hto
      · rw [if_neg hlt]
        rw [addTransfer_tokens, htokid, mget_mset_self]
        simp only [Option.map_some']
        exact congrArg some hto

/-- Processing an event leaves the token-map entries of all other token
keys untouched. -/
theorem processEvent_tokens_other (cfg : Config) {s : SaveState}
    (e : ENSData) (k : String) (hk : k ≠ toString e.tokenId)
    (hWF : s.WF) :
    mget (processEvent cfg s e).tokens k = mget s.tokens k := by
  obtain ⟨hO, hT⟩ := hWF
  have hT2 : tokensWF
      (resolveOwner (resolveOwner s e.fromAddr).2 e.toAddr).2.tokens := by
    rw [(resolveOwner_frame _ _).1, (resolveOwner_frame _ _).1]; exact hT
  have htokid := resolveToken_fst_id e.tokenId hT2
  have hbase :
      mget (resolveToken (resolveOwner (resolveOwner s e.fromAddr).2
        e.toAddr).2 e.tokenId).2.tokens k = mget s.tokens k := by
    rw [resolveToken_tokens_other _ _ _ hk, (resolveOwner_frame _ _).1,
      (resolveOwner_frame _ _).1]
  have hkk : k ≠ (resolveToken (resolveOwner (resolveOwner s e.fromAddr).2
      e.toAddr).2 e.tokenId).1.id := by rw [htokid]; exact hk
  simp only [processEvent]
  rcases e.expires with _ | n
  · dsimp only
    rw [addTransfer_tokens, mget_mset_ne _ _ _ _ hkk]
    exact hbase
  · dsimp only
    by_cases hn : n = 0
    · rw [if_neg (by omega)]
      rw [addTransfer_tokens, mget_mset_ne _ _ _ _ hkk]
      exact hbase
    · rw [if_pos hn]
      by_cases hlt : n * 1000 < cfg.now
      · rw [if_pos hlt]
        rw [mget_mset_ne _ _ _ _ hkk, mget_mset_ne _ _ _ _ hkk]
        exact hbase
      · rw [if_neg hlt]
        rw [addTransfer_tokens, mget_mset_ne _ _ _ _ hkk,
          mget_mset_ne _ _ _ _ hkk, mget_mset_ne _ _ _ _ hkk]
        exact hbase

/-! ## Claim C1 -/

/-- A store holding token "1" owned by "0xa". -/
def stC1 : Store :=
  { owners := [{ id := "0xa" }],
    tokens := [{ id := "1", owner := some "0xa", name := none,
                 imageURI := none, uri := none, expires := none,
                 contract := some contractAddress }],
    transfers := [], good := [], bad := [] }

/-- A renewal event for token 1: no `from`, no `to`, a fresh expiration. -/
def eRenewW : ENSData :=
  { id := "tx-ca-1-5", fromAddr := none, toAddr := none, tokenId := 1,
    timestamp := 1, expires := some 2000000000, block := 2,
    transactionHash := "tx" }

/--
C1 counterexample: before the batch the stored token "1" has owner "0xa";
after the reconciliation loop processes the single renewal event (absent
`to`) the token's owner is `none` — `token.owner = toOwner` assigned the
`undefined` resolution — so the owner is **not** left equal to what it was
before, in the working map and in the persisted row alike (no Transfer is
produced, as the row set stays empty).
-/
theorem C1_renewal_counterexample :
    stC1.tokens.map (fun r => r.owner) = [some "0xa"] ∧
    (saveENSData cfgW stC1 none [eRenewW]).store.tokens.map
        (fun r => r.owner) = [none] ∧
    (saveENSData cfgW stC1 none [eRenewW]).store.tokens.map
        (fun r => r.owner) ≠ stC1.tokens.map (fun r => r.owner) ∧
    (saveENSData cfgW stC1 none [eRenewW]).store.transfers = [] := by
  decide

/--
C1 (amended): for every event with an empty/absent `to` address the loop
produces no Transfer, but instead of leaving the token's owner untouched
it unconditionally assigns the `undefined` resolved owner: afterwards the
token's owner field is `none`, clearing any previously held owner.  The
owner is "unchanged" only when it was already unset.
-/
theorem C1_renewal_clears_owner (cfg : Config) {s : SaveState}
    (e : ENSData) (hWF : s.WF) (hto : truthy e.toAddr = false) :
    (processEvent cfg s e).transfers.map Transfer.toRow =
        s.transfers.map Transfer.toRow ∧
    (mget (processEvent cfg s e).tokens (toString e.tokenId)).map
        (fun t => t.owner.map Owner.id) = some none := by
  constructor
  · rw [processEvent_transfers_toRow cfg e hWF]
    have hrow : transferRowOf cfg e = none := by
      simp [transferRowOf, hto]
    rw [hrow]
    simp
  · rw [processEvent_token_owner cfg e hWF, hto]
    simp

/-- Witness for the amended C1 at the concrete renewal event. -/
theorem C1_renewal_clears_owner_witness :
    stateW.WF ∧ truthy eRenewW.toAddr = false ∧
    ((processEvent cfgW stateW eRenewW).transfers.map Transfer.toRow =
        stateW.transfers.map Transfer.toRow ∧
      (mget (processEvent cfgW stateW eRenewW).tokens
          (toString eRenewW.tokenId)).map
        (fun t => t.owner.map Owner.id) = some none) :=
  ⟨by decide, rfl, C1_renewal_clears_owner cfgW eRenewW (by decide) rfl⟩

/-! ## Row-level characterization of the token mutation -/

/-- The token row a key resolves to: the existing row if present, else the
freshly created token row referencing contract `cid`. -/
def rowOrNew (cid : String) (tid : Nat) : Option TokenRow → TokenRow
  | some r => r
  | none => { id := toString tid, owner := none, name := none,
              imageURI := none, uri := none, expires := none,
              contract := some cid }

/-- The persisted-row effect of one event on its own token key: owner
assigned unconditionally; expiration written when truthy; descriptive
fields overwritten from the enrichment oracle (empty strings when the
request throws) unless the expiration lies in the past. -/
def applyEventRow (cfg : Config) (cid : String) (e : ENSData)
    (pre : Option TokenRow) : TokenRow :=
  let base := rowOrNew cid e.tokenId pre
  let base1 := { base with owner :=
    (if truthy e.toAddr then some (lower (orEmpty e.toAddr)) else none) }
  match e.expires with
  | some n =>
    if n ≠ 0 then
      let base2 := { base1 with expires := some n }
      if n * 1000 < cfg.now then base2
      else
        match cfg.enrich e.tokenId with
        | none =>
          { base2 with
              name := some "", uri := some "", imageURI := some "" }
        | some m =>
          { base2 with
              name := m.name, uri := m.url, imageURI := m.image }
    else base1
  | none => base1

theorem getOrCreateContractEntity_fst_congr {s s' : SaveState}
    (hc : s.cache = s'.cache) (hg : s.store.good = s'.store.good) :
    (getOrCreateContractEntity s).1 = (getOrCreateContractEntity s').1 := by
  rcases hc' : s'.cache with _ | c
  · rcases hf : s'.store.good.find? (fun x => x.id == contractAddress)
      with _ | c
    · simp only [getOrCreateContractEntity, hc, hg, hc', hf]
    · simp only [getOrCreateContractEntity, hc, hg, hc', hf]
  · simp only [getOrCreateContractEntity, hc, hg, hc']

theorem resolveToken_fst_row {s : SaveState} (tid : Nat) :
    (resolveToken s tid).1.toRow =
      rowOrNew (getOrCreateContractEntity s).1.id tid
        ((mget s.tokens (toString tid)).map Token.toRow) := by
  simp only [resolveToken]
  cases hm : mget s.tokens (toString tid) with
  | some t => simp [hm, rowOrNew]
  | none => simp [hm, rowOrNew, Token.toRow]

theorem mget_mset_self_of_eq {α : Type} {m : List (String × α)}
    {k1 k2 : String} {v : α} (h : k1 = k2) :
    mget (mset m k1 v) k2 = some v := by
  subst h
  exact mget_mset_self m k1 v

/-- The row-level effect of one event on its own token key: the working
map afterwards holds, at the event's token-id key, exactly
`applyEventRow` of the row that key previously resolved to. -/
theorem processEvent_token_row_self (cfg : Config) {s : SaveState}
    (e : ENSData) (hWF : s.WF) :
    (mget (processEvent cfg s e).tokens (toString e.tokenId)).map
        Token.toRow =
      some (applyEventRow cfg (getOrCreateContractEntity s).1.id e
        ((mget s.tokens (toString e.tokenId)).map Token.toRow)) := by
  obtain ⟨hO, hT⟩ := hWF
  have hO1 := resolveOwner_WF e.fromAddr (s := s) hO
  have hto := resolveOwner_fst_id e.toAddr hO1
  have htoks2 :
      (resolveOwner (resolveOwner s e.fromAddr).2 e.toAddr).2.tokens =
        s.tokens := by
    rw [(resolveOwner_frame _ _).1, (resolveOwner_frame _ _).1]
  have hT2 : tokensWF
      (resolveOwner (resolveOwner s e.fromAddr).2 e.toAddr).2.tokens := by
    rw [htoks2]; exact hT
  have htokid := resolveToken_fst_id e.tokenId hT2
  have hcid : (getOrCreateContractEntity
      (resolveOwner (resolveOwner s e.fromAddr).2 e.toAddr).2).1 =
      (getOrCreateContractEntity s).1 := by
    apply getOrCreateContractEntity_fst_congr
    · rw [(resolveOwner_frame _ _).2.2.2.1, (resolveOwner_frame _ _).2.2.2.1]
    · rw [(resolveOwner_frame _ _).2.2.1, (resolveOwner_frame _ _).2.2.1]
  have hrow : (resolveToken
      (resolveOwner (resolveOwner s e.fromAddr).2 e.toAddr).2
        e.tokenId).1.toRow =
      rowOrNew (getOrCreateContractEntity s).1.id e.tokenId
        ((mget s.tokens (toString e.tokenId)).map Token.toRow) := by
    rw [resolveToken_fst_row, hcid, htoks2]
  simp only [processEvent]
  rcases hexp : e.expires with _ | n
  · dsimp only
    rw [addTransfer_tokens, mget_mset_self_of_eq htokid]
    simp only [Option.map_some']
    refine congrArg some ?_
    simp only [applyEventRow, hexp]
    rw [← hrow]
    simp only [Token.toRow]
    rw [hto]
  · dsimp only
    by_cases hn : n = 0
    · rw [if_neg (by omega)]
      rw [addTransfer_tokens, mget_mset_self_of_eq htokid]
      simp only [Option.map_some']
      refine congrArg some ?_
      simp only [applyEventRow, hexp]
      rw [if_neg (by omega)]
      rw [← hrow]
      simp only [Token.toRow]
      rw [hto]
    · have hn' : n ≠ 0 := hn
      rw [if_pos hn']
      by_cases hlt : n * 1000 < cfg.now
      · rw [if_pos hlt]
        rw [mget_mset_self_of_eq htokid]
        simp only [Option.map_some']
        refine congrArg some ?_
        simp only [applyEventRow, hexp]
        rw [if_pos hn', if_pos hlt]
        rw [← hrow]
        simp only [Token.toRow]
        rw [hto]
      · rw [if_neg hlt]
        rcases henr : cfg.enrich e.tokenId with _ | m
        · simp only [henr]
          rw [addTransfer_tokens, mget_mset_self_of_eq htokid]
          simp only [Option.map_some']
          refine congrArg some ?_
          simp only [applyEventRow, hexp, henr]
          rw [if_pos hn', if_neg hlt]
          rw [← hrow]
          simp only [Token.toRow]
          rw [hto]
        · simp only [henr]
          rw [addTransfer_tokens, mget_mset_self_of_eq htokid]
          simp only [Option.map_some']
          refine congrArg some ?_
          simp only [applyEventRow, hexp, henr]
          rw [if_pos hn', if_neg hlt]
          rw [← hrow]
          simp only [Token.toRow]
          rw [hto]

/-- The enrichment calls one event issues: exactly one, for its token,
when it carries a truthy expiration that is not in the past. -/
def enrichCallsOf (cfg : Config) (e : ENSData) : List Nat :=
  match e.expires with
  | some n => if n ≠ 0 ∧ ¬ n * 1000 < cfg.now then [e.tokenId] else []
  | none => []

theorem processEvent_enrichCalls (cfg : Config) (s : SaveState)
    (e : ENSData) :
    (processEvent cfg s e).enrichCalls =
      s.enrichCalls ++ enrichCallsOf cfg e := by
  have hbase :
      (resolveToken (resolveOwner (resolveOwner s e.fromAddr).2 e.toAddr).2
        e.tokenId).2.enrichCalls = s.enrichCalls := by
    rw [resolveToken_enrichCalls, (resolveOwner_frame _ _).2.2.2.2.1,
      (resolveOwner_frame _ _).2.2.2.2.1]
  simp only [processEvent]
  rcases hexp : e.expires with _ | n
  · dsimp only
    rw [addTransfer_enrichCalls, hbase]
    simp [enrichCallsOf, hexp]
  · dsimp only
    by_cases hn : n = 0
    · rw [if_neg (by omega)]
      rw [addTransfer_enrichCalls, hbase]
      simp [enrichCallsOf, hexp, hn]
    · rw [if_pos (show n ≠ 0 from hn)]
      by_cases hlt : n * 1000 < cfg.now
      · rw [if_pos hlt]
        dsimp only
        rw [hbase]
        simp [enrichCallsOf, hexp, hn, hlt]
      · rw [if_neg hlt]
        rw [addTransfer_enrichCalls]
        dsimp only
        rw [hbase]
        simp [enrichCallsOf, hexp, hn, hlt]

/-! ## Claim C5 -/

/--
C5: for an event carrying an expiration strictly earlier than the current
wall clock, the loop performs no enrichment call, the token's descriptive
fields (name, uri, imageURI) stay exactly what they were before the event,
and the owner assignment — and, for a truthy value, the expiration write —
already applied still stand.
-/
theorem C5_expired_skips_enrichment (cfg : Config) {s : SaveState}
    (e : ENSData) (n : Nat) (hWF : s.WF) (hexp : e.expires = some n)
    (hpast : n * 1000 < cfg.now) :
    (processEvent cfg s e).enrichCalls = s.enrichCalls ∧
    (mget (processEvent cfg s e).tokens (toString e.tokenId)).map
        (fun t => (t.name, t.uri, t.imageURI)) =
      some ((mget s.tokens (toString e.tokenId)).bind Token.name,
            (mget s.tokens (toString e.tokenId)).bind Token.uri,
            (mget s.tokens (toString e.tokenId)).bind Token.imageURI) ∧
    (mget (processEvent cfg s e).tokens (toString e.tokenId)).map
        (fun t => t.owner.map Owner.id) =
      some (if truthy e.toAddr then some (lower (orEmpty e.toAddr))
            else none) ∧
    (mget (processEvent cfg s e).tokens (toString e.tokenId)).map
        (fun t => t.expires) =
      some (if n ≠ 0 then some n
            else (mget s.tokens (toString e.tokenId)).bind Token.expires) := by
  refine ⟨?_, ?_, processEvent_token_owner cfg e hWF, ?_⟩
  · rw [processEvent_enrichCalls]
    simp [enrichCallsOf, hexp, hpast]
  · have hR := processEvent_token_row_self cfg e hWF
    cases hm : mget (processEvent cfg s e).tokens (toString e.tokenId) with
    | none => rw [hm] at hR; cases hR
    | some t =>
      rw [hm] at hR
      simp only [Option.map_some', Option.some.injEq] at hR
      simp only [applyEventRow, hexp] at hR
      by_cases hn : n = 0
      · rw [if_neg (by omega)] at hR
        simp only [Token.toRow, TokenRow.mk.injEq] at hR
        obtain ⟨_, _, h3, h4, h5, _, _⟩ := hR
        simp only [Option.map_some']
        refine congrArg some ?_
        rw [h3, h4, h5]
        cases hpre : mget s.tokens (toString e.tokenId) <;>
          simp [hpre, rowOrNew, Token.toRow]
      · rw [if_pos (show n ≠ 0 from hn), if_pos hpast] at hR
        simp only [Token.toRow, TokenRow.mk.injEq] at hR
        obtain ⟨_, _, h3, h4, h5, _, _⟩ := hR
        simp only [Option.map_some']
        refine congrArg some ?_
        rw [h3, h4, h5]
        cases hpre : mget s.tokens (toString e.tokenId) <;>
          simp [hpre, rowOrNew, Token.toRow]
  · have hR := processEvent_token_row_self cfg e hWF
    cases hm : mget (processEvent cfg s e).tokens (toString e.tokenId) with
    | none => rw [hm] at hR; cases hR
    | some t =>
      rw [hm] at hR
      simp only [Option.map_some', Option.some.injEq] at hR
      simp only [applyEventRow, hexp] at hR
      by_cases hn : n = 0
      · rw [if_neg (by omega)] at hR
        simp only [Token.toRow, TokenRow.mk.injEq] at hR
        obtain ⟨_, _, _, _, _, h6, _⟩ := hR
        simp only [Option.map_some']
        refine congrArg some ?_
        rw [if_neg (by omega : ¬ n ≠ 0), h6]
        cases hpre : mget s.tokens (toString e.tokenId) <;>
          simp [hpre, rowOrNew, Token.toRow]
      · rw [if_pos (show n ≠ 0 from hn), if_pos hpast] at hR
        simp only [Token.toRow, TokenRow.mk.injEq] at hR
        obtain ⟨_, _, _, _, _, h6, _⟩ := hR
        simp only [Option.map_some']
        refine congrArg some ?_
        rw [if_pos (show n ≠ 0 from hn), h6]

/-- A renewal-shaped event whose expiration (1 second) lies before the
witness wall clock. -/
def ePastW : ENSData :=
  { id := "tx-ca-9-0", fromAddr := none, toAddr := some "0xcc",
    tokenId := 9, timestamp := 1, expires := some 1, block := 2,
    transactionHash := "tx" }

/-- Witness for C5 at a concrete expired event. -/
theorem C5_expired_skips_enrichment_witness :
    stateW.WF ∧ ePastW.expires = some 1 ∧ 1 * 1000 < cfgW.now ∧
    ((processEvent cfgW stateW ePastW).enrichCalls = stateW.enrichCalls ∧
     (mget (processEvent cfgW stateW ePastW).tokens
         (toString ePastW.tokenId)).map
        (fun t => (t.name, t.uri, t.imageURI)) =
      some ((mget stateW.tokens (toString ePastW.tokenId)).bind Token.name,
            (mget stateW.tokens (toString ePastW.tokenId)).bind Token.uri,
            (mget stateW.tokens (toString ePastW.tokenId)).bind
              Token.imageURI) ∧
     (mget (processEvent cfgW stateW ePastW).tokens
         (toString ePastW.tokenId)).map
        (fun t => t.owner.map Owner.id) =
      some (if truthy ePastW.toAddr then some (lower (orEmpty ePastW.toAddr))
            else none) ∧
     (mget (processEvent cfgW stateW ePastW).tokens
         (toString ePastW.tokenId)).map
        (fun t => t.expires) =
      some (if (1 : Nat) ≠ 0 then some 1
            else (mget stateW.tokens (toString ePastW.tokenId)).bind
              Token.expires)) :=
  ⟨by decide, rfl, by decide,
   C5_expired_skips_enrichment cfgW ePastW 1 (by decide) rfl (by decide)⟩

/-! ## Claim C6 -/

/-- An oracle whose request does not throw but delivers a payload carrying
none of the expected properties (a malformed body: `meta.data.image`,
`meta.data.name` and `meta.data.url` all evaluate to `undefined`). -/
def cfgMalformedW : Config :=
  { now := 1, enrich := fun _ =>
      some { image := none, name := none, url := none } }

/-- An oracle whose request throws (network error / non-2xx response). -/
def cfgThrowW : Config := { now := 1, enrich := fun _ => none }

/-- A registration-shaped event with a future expiration. -/
def eFutW : ENSData :=
  { id := "tx-ca-3-0", fromAddr := none, toAddr := some "0xdd",
    tokenId := 3, timestamp := 1, expires := some 5, block := 2,
    transactionHash := "tx" }

/--
C6 counterexample: on a malformed-but-delivered payload (a response whose
body carries none of the expected fields) the token's descriptive fields
are **not** set to the empty-string defaults — they are assigned the
payload's missing values and end up unset (`none`), not `some ""`.
-/
theorem C6_malformed_payload_counterexample :
    (mget (processEvent cfgMalformedW stateW eFutW).tokens "3").map
        (fun t => (t.name, t.uri, t.imageURI)) =
      some (none, none, none) ∧
    (mget (processEvent cfgMalformedW stateW eFutW).tokens "3").map
        (fun t => (t.name, t.uri, t.imageURI)) ≠
      some (some "", some "", some "") := by
  decide

/--
C6 (amended): when the enrichment request throws — network error,
non-success response, absent body — the failure aborts nothing: the
token's descriptive fields are set to the empty-string defaults, the owner
and expiration mutations already applied stand, and the loop proceeds to
the transfer step as usual.  (Only a malformed-but-delivered payload
differs: its possibly-missing field values are assigned as they are, so
the fields end up unset instead of empty.)
-/
theorem C6_enrichment_throw_defaults (cfg : Config) {s : SaveState}
    (e : ENSData) (n : Nat) (hWF : s.WF) (hexp : e.expires = some n)
    (hn : n ≠ 0) (hfut : ¬ n * 1000 < cfg.now)
    (hfail : cfg.enrich e.tokenId = none) :
    (mget (processEvent cfg s e).tokens (toString e.tokenId)).map
        (fun t => (t.name, t.uri, t.imageURI)) =
      some (some "", some "", some "") ∧
    (mget (processEvent cfg s e).tokens (toString e.tokenId)).map
        (fun t => t.owner.map Owner.id) =
      some (if truthy e.toAddr then some (lower (orEmpty e.toAddr))
            else none) ∧
    (mget (processEvent cfg s e).tokens (toString e.tokenId)).map
        (fun t => t.expires) = some (some n) ∧
    (processEvent cfg s e).transfers.map Transfer.toRow =
      s.transfers.map Transfer.toRow ++ (transferRowOf cfg e).toList := by
  refine ⟨?_, processEvent_token_owner cfg e hWF, ?_,
    processEvent_transfers_toRow cfg e hWF⟩
  · have hR := processEvent_token_row_self cfg e hWF
    cases hm : mget (processEvent cfg s e).tokens (toString e.tokenId) with
    | none => rw [hm] at hR; cases hR
    | some t =>
      rw [hm] at hR
      simp only [Option.map_some', Option.some.injEq] at hR
      simp only [applyEventRow, hexp, hfail] at hR
      rw [if_pos hn, if_neg hfut] at hR
      simp only [Token.toRow, TokenRow.mk.injEq] at hR
      obtain ⟨_, _, h3, h4, h5, _, _⟩ := hR
      simp only [Option.map_some']
      refine congrArg some ?_
      rw [h3, h4, h5]
  · have hR := processEvent_token_row_self cfg e hWF
    cases hm : mget (processEvent cfg s e).tokens (toString e.tokenId) with
    | none => rw [hm] at hR; cases hR
    | some t =>
      rw [hm] at hR
      simp only [Option.map_some', Option.some.injEq] at hR
      simp only [applyEventRow, hexp, hfail] at hR
      rw [if_pos hn, if_neg hfut] at hR
      simp only [Token.toRow, TokenRow.mk.injEq] at hR
      obtain ⟨_, _, _, _, _, h6, _⟩ := hR
      simp only [Option.map_some']
      exact congrArg some h6

/-- Witness for the amended C6 at a concrete throwing enrichment. -/
theorem C6_enrichment_throw_defaults_witness :
    stateW.WF ∧ eFutW.expires = some 5 ∧ (5 : Nat) ≠ 0 ∧
    ¬ (5 : Nat) * 1000 < cfgThrowW.now ∧
    cfgThrowW.enrich eFutW.tokenId = none ∧
    ((mget (processEvent cfgThrowW stateW eFutW).tokens
         (toString eFutW.tokenId)).map
        (fun t => (t.name, t.uri, t.imageURI)) =
      some (some "", some "", some "") ∧
     (mget (processEvent cfgThrowW stateW eFutW).tokens
         (toString eFutW.tokenId)).map
        (fun t => t.owner.map Owner.id) =
      some (if truthy eFutW.toAddr then some (lower (orEmpty eFutW.toAddr))
            else none) ∧
     (mget (processEvent cfgThrowW stateW eFutW).tokens
         (toString eFutW.tokenId)).map
        (fun t => t.expires) = some (some 5) ∧
     (processEvent cfgThrowW stateW eFutW).transfers.map Transfer.toRow =
       stateW.transfers.map Transfer.toRow ++
         (transferRowOf cfgThrowW eFutW).toList) :=
  ⟨by decide, rfl, by decide, by decide, rfl,
   C6_enrichment_throw_defaults cfgThrowW eFutW 5 (by decide) rfl
     (by decide) (by decide) rfl⟩

/-! ## Claim C2 -/

/-- A transfer event whose decoded addresses are checksummed
(mixed-case), as ethers produces them. -/
def eMix1 : ENSData :=
  { id := "tx-ca-4-0", fromAddr := some "0xB", toAddr := some "0xA",
    tokenId := 4, timestamp := 1, expires := none, block := 2,
    transactionHash := "tx" }

/-- A second transfer event for the same token and the same two
mixed-case addresses (a later log of the same batch). -/
def eMix2 : ENSData :=
  { id := "tx-ca-4-1", fromAddr := some "0xB", toAddr := some "0xA",
    tokenId := 4, timestamp := 1, expires := none, block := 2,
    transactionHash := "tx" }

/--
C2 counterexample: with mixed-case (checksummed) address spellings, the
lookup `owners.get(from || "")` uses the original spelling while entries
are stored under the lower-cased id, so it misses every time: each of the
two events creates a **fresh** `Owner` object for the same identity
("0xa"/"0xb"), and the two transfers reference objects with different
allocation tags — the events do not share one in-memory object per
identity.
-/
theorem C2_mixed_case_counterexample :
    (saveENSData cfgW storeW none [eMix1, eMix2]).transfers.map
        (fun tr => (tr.toId, tr.toAlloc)) = [("0xa", 1), ("0xa", 4)] ∧
    ((saveENSData cfgW storeW none [eMix1, eMix2]).transfers.map
        (fun tr => tr.toId)) = ["0xa", "0xa"] ∧
    ((saveENSData cfgW storeW none [eMix1, eMix2]).transfers.map
        (fun tr => tr.toAlloc)) ≠ [1, 1] ∧
    (1 : Nat) ≠ 4 := by
  decide

theorem resolveOwner_preserves {s : SaveState} (addr : Option String)
    (hlc : ∀ a, addr = some a → lower a = a)
    {k : String} {o : Owner} (h : mget s.owners k = some o) :
    mget (resolveOwner s addr).2.owners k = some o := by
  simp only [resolveOwner]
  split
  case isTrue hc =>
    obtain ⟨ht, hn⟩ := hc
    rcases haddr : addr with _ | a
    · rw [haddr] at ht; simp [truthy] at ht
    · have hla : lower a = a := hlc a haddr
      have hn' : mget s.owners a = none := by rw [haddr] at hn; exact hn
      have hgoal : mget (mset s.owners (lower a)
          ({ id := lower a, alloc := s.nextAlloc } : Owner)) k = some o := by
        rw [hla]
        by_cases hk : k = a
        · subst hk
          rw [h] at hn'
          cases hn'
        · rw [mget_mset_ne _ _ _ _ hk]
          exact h
      exact hgoal
  case isFalse => exact h

theorem processEvent_owners_preserves (cfg : Config) {s : SaveState}
    (e : ENSData)
    (hlc : ∀ a, e.fromAddr = some a ∨ e.toAddr = some a → lower a = a)
    {k : String} {o : Owner} (h : mget s.owners k = some o) :
    mget (processEvent cfg s e).owners k = some o := by
  rw [processEvent_owners]
  exact resolveOwner_preserves e.toAddr (fun a ha => hlc a (Or.inr ha))
    (resolveOwner_preserves e.fromAddr (fun a ha => hlc a (Or.inl ha)) h)

theorem processEvent_token_alloc (cfg : Config) {s : SaveState}
    (e : ENSData) (hWF : s.WF) {t : Token}
    (h : mget s.tokens (toString e.tokenId) = some t) :
    ∃ t', mget (processEvent cfg s e).tokens (toString e.tokenId) =
        some t' ∧ t'.alloc = t.alloc ∧ t'.id = t.id := by
  obtain ⟨hO, hT⟩ := hWF
  have htoks2 :
      (resolveOwner (resolveOwner s e.fromAddr).2 e.toAddr).2.tokens =
        s.tokens := by
    rw [(resolveOwner_frame _ _).1, (resolveOwner_frame _ _).1]
  have hid : t.id = toString e.tokenId := hT _ (mget_some_mem h)
  have hres : resolveToken
      (resolveOwner (resolveOwner s e.fromAddr).2 e.toAddr).2 e.tokenId =
      (t, (resolveOwner (resolveOwner s e.fromAddr).2 e.toAddr).2) := by
    simp only [resolveToken, htoks2, h]
  simp only [processEvent, hres]
  rcases e.expires with _ | n
  · dsimp only
    rw [addTransfer_tokens]
    exact ⟨_, mget_mset_self_of_eq hid, rfl, rfl⟩
  · dsimp only
    by_cases hn : n = 0
    · rw [if_neg (by omega)]
      rw [addTransfer_tokens]
      exact ⟨_, mget_mset_self_of_eq hid, rfl, rfl⟩
    · rw [if_pos (show n ≠ 0 from hn)]
      by_cases hlt : n * 1000 < cfg.now
      · rw [if_pos hlt]
        exact ⟨_, mget_mset_self_of_eq hid, rfl, rfl⟩
      · rw [if_neg hlt]
        rw [addTransfer_tokens]
        exact ⟨_, mget_mset_self_of_eq hid, rfl, rfl⟩

/--
C2 (amended): the working maps hold at most one object per identity at any
time, and provided every decoded address is already lower-case, object
identity is stable across the batch: an owner entry, once present, is
never replaced (every later event referencing that identity resolves the
very same object), and a token entry keeps its object identity and id
while being mutated in place.  For mixed-case spellings (as the decoder
emits) this fails: each event misses the lookup and replaces the entry
with a freshly created object — see the counterexample.
-/
theorem C2_single_object_per_identity (cfg : Config) {s : SaveState}
    (arr : List ENSData) (hWF : s.WF)
    (hlc : ∀ e ∈ arr, ∀ a,
      e.fromAddr = some a ∨ e.toAddr = some a → lower a = a) :
    (∀ k o, mget s.owners k = some o →
      mget (processEvents cfg s arr).owners k = some o) ∧
    (∀ k t, mget s.tokens k = some t →
      ∃ t', mget (processEvents cfg s arr).tokens k = some t' ∧
        t'.alloc = t.alloc ∧ t'.id = t.id) := by
  induction arr generalizing s with
  | nil => exact ⟨fun k o h => h, fun k t h => ⟨t, h, rfl, rfl⟩⟩
  | cons e rest ih =>
    have hWF' := processEvent_WF cfg e hWF
    have hlc' : ∀ e' ∈ rest, ∀ a,
        e'.fromAddr = some a ∨ e'.toAddr = some a → lower a = a :=
      fun e' he' => hlc e' (by simp [he'])
    obtain ⟨ihO, ihT⟩ := ih hWF' hlc'
    constructor
    · intro k o h
      exact ihO k o
        (processEvent_owners_preserves cfg e (hlc e (by simp)) h)
    · intro k t h
      by_cases hk : k = toString e.tokenId
      · subst hk
        obtain ⟨t', ht', ha, hi⟩ := processEvent_token_alloc cfg e hWF h
        obtain ⟨t'', ht'', ha', hi'⟩ := ihT _ t' ht'
        exact ⟨t'', ht'', by rw [ha', ha], by rw [hi', hi]⟩
      · have : mget (processEvent cfg s e).tokens k = some t := by
          rw [processEvent_tokens_other cfg e k hk hWF]
          exact h
        exact ihT k t this

/-- Witness for the amended C2 on a concrete lower-case batch. -/
theorem C2_single_object_per_identity_witness :
    stateW.WF ∧
    (∀ e ∈ arrW3, ∀ a,
      e.fromAddr = some a ∨ e.toAddr = some a → lower a = a) ∧
    ((∀ k o, mget stateW.owners k = some o →
        mget (processEvents cfgW stateW arrW3).owners k = some o) ∧
     (∀ k t, mget stateW.tokens k = some t →
        ∃ t', mget (processEvents cfgW stateW arrW3).tokens k = some t' ∧
          t'.alloc = t.alloc ∧ t'.id = t.id)) := by
  have hlc : ∀ e ∈ arrW3, ∀ a,
      e.fromAddr = some a ∨ e.toAddr = some a → lower a = a := by
    intro e he a ha
    simp only [arrW3, List.mem_cons, List.not_mem_nil, or_false] at he
    rcases he with rfl | rfl | rfl <;> rcases ha with h | h <;>
      (try cases h) <;> decide
  exact ⟨by decide, hlc,
    C2_single_object_per_identity cfgW arrW3 (by decide) hlc⟩

/-! ## Claim C4 -/

/-- The last event of the batch referencing token key `k`. -/
def lastEventFor (k : String) (arr : List ENSData) : Option ENSData :=
  arr.reverse.find? (fun e => toString e.tokenId == k)

theorem lastEventFor_cons (k : String) (e : ENSData) (arr : List ENSData) :
    lastEventFor k (e :: arr) =
      match lastEventFor k arr with
      | some e' => some e'
      | none => if toString e.tokenId == k then some e else none := by
  unfold lastEventFor
  rw [List.reverse_cons, List.find?_append]
  cases hf : arr.reverse.find? (fun e' => toString e'.tokenId == k) with
  | some e' => simp
  | none =>
    simp only [Option.none_or]
    cases hp : (toString e.tokenId == k) with
    | true =>
      have h1 : List.find? (fun e' => toString e'.tokenId == k) [e] =
          some e := List.find?_cons_of_pos [] hp
      rw [h1]
      simp
    | false =>
      have h1 : List.find? (fun e' => toString e'.tokenId == k) [e] =
          none := by
        rw [List.find?_cons_of_neg [] (by simp [hp])]
        rfl
      rw [h1]
      simp

/-- Last-write-wins at batch level: after the loop, the owner stored at a
token key is determined by the **last** event of the batch referencing
that token — its resolved `to` owner, possibly `none` — and is untouched
if no event references the token. -/
theorem processEvents_token_owner (cfg : Config) :
    ∀ (arr : List ENSData) (s : SaveState), s.WF → ∀ k : String,
      (mget (processEvents cfg s arr).tokens k).map
          (fun t => t.owner.map Owner.id) =
        match lastEventFor k arr with
        | some e => some (if truthy e.toAddr then
            some (lower (orEmpty e.toAddr)) else none)
        | none => (mget s.tokens k).map (fun t => t.owner.map Owner.id) := by
  intro arr
  induction arr with
  | nil => intro s _ k; rfl
  | cons e rest ih =>
    intro s hWF k
    show (mget (processEvents cfg (processEvent cfg s e) rest).tokens k).map
        _ = _
    rw [ih _ (processEvent_WF cfg e hWF) k, lastEventFor_cons]
    cases hl : lastEventFor k rest with
    | some e' => rfl
    | none =>
      by_cases hk : toString e.tokenId = k
      · subst hk
        rw [processEvent_token_owner cfg e hWF]
        simp
      · rw [processEvent_tokens_other cfg e k (fun h => hk h.symm) hWF]
        simp [hk]

/--
C4 (amended): within one batch the token's final owner equals the resolved
`to` owner of the **last** event in batch order referencing that token; in
particular, for two events with differing present `to` owners the later
one wins exactly when no later event for that token follows it.  (The
original claim fails when a renewal for the same token follows the two
events, since renewal clears the owner — see the counterexample.)
-/
theorem C4_last_event_wins (cfg : Config) (st : Store)
    (cache : Option GoodContract) (arr : List ENSData) (k : String)
    (e : ENSData) (hlast : lastEventFor k arr = some e) (a : String)
    (hto : e.toAddr = some a) (ha : a ≠ "") :
    (mget (saveENSData cfg st cache arr).tokens k).map
        (fun t => t.owner.map Owner.id) = some (some (lower a)) := by
  simp only [saveENSData]
  rw [processEvents_token_owner cfg arr _
    ⟨preloadOwners_WF st arr _, preloadTokens_WF st _ _⟩ k, hlast]
  simp [truthy, orEmpty, hto, ha]

/-- First transfer of token 5, to owner "0xaa". -/
def eA4 : ENSData :=
  { id := "t-5a", fromAddr := some "0xee", toAddr := some "0xaa",
    tokenId := 5, timestamp := 1, expires := none, block := 2,
    transactionHash := "t" }

/-- Later transfer of token 5, to the differing owner "0xbb". -/
def eB4 : ENSData :=
  { id := "t-5b", fromAddr := some "0xee", toAddr := some "0xbb",
    tokenId := 5, timestamp := 1, expires := none, block := 2,
    transactionHash := "t" }

/-- A renewal of token 5 following both transfers. -/
def eR4 : ENSData :=
  { id := "t-5c", fromAddr := none, toAddr := none, tokenId := 5,
    timestamp := 1, expires := some 1, block := 2,
    transactionHash := "t" }

/--
C4 counterexample: the batch `[eA4, eB4, eR4]` contains two events for
token 5 whose `to` owners are both present and differ (`"0xaa"` vs
`"0xbb"`, with eB4 the later of the two), yet after the loop the token's
owner is `none` — not the resolved `to` owner of eB4 — because the
trailing renewal event cleared it.
-/
theorem C4_later_event_counterexample :
    eA4.tokenId = 5 ∧ eB4.tokenId = 5 ∧
    truthy eA4.toAddr = true ∧ truthy eB4.toAddr = true ∧
    eA4.toAddr ≠ eB4.toAddr ∧
    (mget (saveENSData cfgW storeW none [eA4, eB4, eR4]).tokens "5").map
        (fun t => t.owner.map Owner.id) = some none ∧
    (mget (saveENSData cfgW storeW none [eA4, eB4, eR4]).tokens "5").map
        (fun t => t.owner.map Owner.id) ≠
      some (some (lower (orEmpty eB4.toAddr))) := by
  decide

/-- Witness for the amended C4: two differing transfers of token 6, the
later one last in the batch; the final owner is its lower-cased `to`. -/
def eA6 : ENSData :=
  { id := "t-6a", fromAddr := some "0xee", toAddr := some "0xAA",
    tokenId := 6, timestamp := 1, expires := none, block := 2,
    transactionHash := "t" }

def eB6 : ENSData :=
  { id := "t-6b", fromAddr := some "0xee", toAddr := some "0xBB",
    tokenId := 6, timestamp := 1, expires := none, block := 2,
    transactionHash := "t" }

theorem C4_last_event_wins_witness :
    lastEventFor "6" [eA6, eB6] = some eB6 ∧ eB6.toAddr = some "0xBB" ∧
    "0xBB" ≠ "" ∧
    (mget (saveENSData cfgW storeW none [eA6, eB6]).tokens "6").map
        (fun t => t.owner.map Owner.id) = some (some (lower "0xBB")) :=
  ⟨by decide, rfl, by decide,
   C4_last_event_wins cfgW storeW none [eA6, eB6] "6" eB6 (by decide)
     "0xBB" rfl (by decide)⟩

/-! ## Generic facts about upsert-by-primary-key

These support the idempotence claim: a second bulk upsert of rows whose
keys are already present only overwrites rows in place, and overwriting
with the same content is the identity. -/

/-- The last row of `R` carrying key `c` (the one that wins an upsert). -/
def lastWith {α : Type} (key : α → String) (R : List α) (c : String) :
    Option α :=
  R.reverse.find? (fun r => key r == c)

theorem lastWith_cons {α : Type} (key : α → String) (r : α) (R : List α)
    (c : String) :
    lastWith key (r :: R) c =
      match lastWith key R c with
      | some x => some x
      | none => if key r == c then some r else none := by
  unfold lastWith
  rw [List.reverse_cons, List.find?_append]
  cases hf : R.reverse.find? (fun x => key x == c) with
  | some x => simp
  | none =>
    simp only [Option.none_or]
    cases hp : (key r == c) with
    | true =>
      have h1 : List.find? (fun x => key x == c) [r] = some r :=
        List.find?_cons_of_pos [] hp
      rw [h1]
      simp
    | false =>
      have h1 : List.find? (fun x => key x == c) [r] = none := by
        rw [List.find?_cons_of_neg [] (by simp [hp])]
        rfl
      rw [h1]
      simp

theorem upsertBy_mem {α : Type} {key : α → String} {L : List α} {r x : α}
    (h : x ∈ upsertBy key L r) : x = r ∨ (x ∈ L ∧ key x ≠ key r) := by
  unfold upsertBy at h
  split at h
  case isTrue hs =>
    obtain ⟨y, hy, hxy⟩ := List.mem_map.mp h
    by_cases hk : key y = key r
    · left; rw [← hxy]; simp [hk]
    · right
      constructor
      · rw [← hxy]; simp [hk]; exact hy
      · rw [← hxy]; simp [hk]
  case isFalse hs =>
    rcases List.mem_append.mp h with h1 | h1
    · right
      refine ⟨h1, ?_⟩
      intro hc
      apply hs
      rw [List.any_eq_true]
      exact ⟨x, h1, by simp [hc]⟩
    · left; simpa using h1

theorem upsertBy_exists_key {α : Type} (key : α → String) (L : List α)
    (r : α) (c : String) (h : ∃ x ∈ L, key x = c) :
    ∃ x ∈ upsertBy key L r, key x = c := by
  obtain ⟨x, hx, hkx⟩ := h
  unfold upsertBy
  split
  case isTrue hs =>
    by_cases hk : key x = key r
    · refine ⟨r, ?_, by rw [← hk, hkx]⟩
      apply List.mem_map.mpr
      exact ⟨x, hx, by simp [hk]⟩
    · refine ⟨x, ?_, hkx⟩
      apply List.mem_map.mpr
      exact ⟨x, hx, by simp [hk]⟩
  case isFalse hs =>
    exact ⟨x, List.mem_append.mpr (Or.inl hx), hkx⟩

theorem upsertBy_self_key {α : Type} (key : α → String) (L : List α)
    (r : α) : ∃ x ∈ upsertBy key L r, key x = key r := by
  unfold upsertBy
  split
  case isTrue hs =>
    obtain ⟨y, hy, hky⟩ := List.any_eq_true.mp hs
    have hky' : key y = key r := by simpa using hky
    refine ⟨r, ?_, rfl⟩
    apply List.mem_map.mpr
    exact ⟨y, hy, by simp [hky']⟩
  case isFalse hs =>
    exact ⟨r, List.mem_append.mpr (Or.inr (by simp)), rfl⟩

theorem upsertAll_exists_key {α : Type} (key : α → String) :
    ∀ (R L : List α) (c : String),
      ((∃ x ∈ L, key x = c) ∨ (∃ r ∈ R, key r = c)) →
      ∃ x ∈ upsertAllBy key L R, key x = c := by
  intro R
  induction R with
  | nil =>
    intro L c h
    rcases h with h | h
    · exact h
    · obtain ⟨r, hr, _⟩ := h; cases hr
  | cons r R ih =>
    intro L c h
    show ∃ x ∈ upsertAllBy key (upsertBy key L r) R, key x = c
    apply ih
    rcases h with h | h
    · exact Or.inl (upsertBy_exists_key key L r c h)
    · obtain ⟨r', hr', hk'⟩ := h
      rcases List.mem_cons.mp hr' with rfl | hr''
      · exact Or.inl (hk' ▸ upsertBy_self_key key L r')
      · exact Or.inr ⟨r', hr'', hk'⟩

theorem upsertAll_mem {α : Type} (key : α → String) :
    ∀ (R L : List α) (x : α), x ∈ upsertAllBy key L R →
      (∃ r ∈ R, x = r) ∨ (x ∈ L ∧ ∀ r ∈ R, key x ≠ key r) := by
  intro R
  induction R with
  | nil => intro L x h; exact Or.inr ⟨h, by intro r hr; cases hr⟩
  | cons r R ih =>
    intro L x h
    rcases ih (upsertBy key L r) x h with h1 | ⟨h1, h2⟩
    · obtain ⟨r', hr', rfl⟩ := h1
      exact Or.inl ⟨x, by simp [hr'], rfl⟩
    · rcases upsertBy_mem h1 with rfl | ⟨h3, h4⟩
      · exact Or.inl ⟨x, by simp, rfl⟩
      · refine Or.inr ⟨h3, ?_⟩
        intro r' hr'
        rcases List.mem_cons.mp hr' with rfl | hr''
        · exact h4
        · exact h2 r' hr''

theorem upsertAll_mem_last {α : Type} (key : α → String) :
    ∀ (R L : List α) (x : α), x ∈ upsertAllBy key L R →
      key x ∈ R.map key → lastWith key R (key x) = some x := by
  intro R
  induction R with
  | nil => intro L x _ hk; cases hk
  | cons r R ih =>
    intro L x hx hk
    rw [lastWith_cons]
    by_cases hR : key x ∈ R.map key
    · rw [ih (upsertBy key L r) x hx hR]
    · have hnotin : ∀ r' ∈ R, key x ≠ key r' := by
        intro r' hr' hc
        exact hR (List.mem_map.mpr ⟨r', hr', hc.symm⟩)
      have hlast : lastWith key R (key x) = none := by
        unfold lastWith
        rw [List.find?_eq_none]
        intro y hy
        have : y ∈ R := List.mem_reverse.mp hy
        simp [(hnotin y this).symm]
      rw [hlast]
      have hkr : key x = key r := by
        rcases List.mem_map.mp hk with ⟨y, hy, hky⟩
        rcases List.mem_cons.mp hy with rfl | hy'
        · exact hky.symm
        · exact absurd hky.symm (hnotin y hy')
      have hxr : x = r := by
        rcases upsertAll_mem key R (upsertBy key L r) x hx with h1 | ⟨h1, _⟩
        · obtain ⟨r', hr', rfl⟩ := h1
          exact absurd (List.mem_map.mpr ⟨x, hr', rfl⟩) hR
        · rcases upsertBy_mem h1 with rfl | ⟨_, h3⟩
          · rfl
          · exact absurd hkr h3
      rw [if_pos (by simp [hkr]), hxr]

theorem upsertAll_present_eq_map {α : Type} (key : α → String) :
    ∀ (R L : List α), (∀ r ∈ R, ∃ x ∈ L, key x = key r) →
      upsertAllBy key L R =
        L.map (fun x => (lastWith key R (key x)).getD x) := by
  intro R
  induction R with
  | nil =>
    intro L _
    show L = _
    symm
    have hfn : (fun (x : α) => (lastWith key ([] : List α) (key x)).getD x) =
        fun x => x := by
      funext x; rfl
    rw [hfn, List.map_id']
  | cons r R ih =>
    intro L h
    have hpres : ∃ x ∈ L, key x = key r := h r (by simp)
    have hup : upsertBy key L r =
        L.map (fun x => if key x == key r then r else x) := by
      unfold upsertBy
      obtain ⟨x, hx, hk⟩ := hpres
      rw [if_pos (List.any_eq_true.mpr ⟨x, hx, by simp [hk]⟩)]
    show upsertAllBy key (upsertBy key L r) R = _
    rw [ih (upsertBy key L r) (by
      intro r' hr'
      exact upsertBy_exists_key key L r (key r') (h r' (by simp [hr'])))]
    rw [hup, List.map_map]
    apply List.map_congr_left
    intro x _
    simp only [Function.comp]
    rw [lastWith_cons]
    by_cases hkx : key x = key r
    · rw [if_pos (by simp [hkx]), hkx]
      cases hl : lastWith key R (key r) with
      | some y => simp [hl]
      | none => simp [hl]
    · rw [if_neg (by simp [hkx])]
      cases hl : lastWith key R (key x) with
      | some y => simp [hl]
      | none =>
        have hkx' : ¬ (key r = key x) := fun hc => hkx hc.symm
        simp [hkx']

theorem upsertAll_idem {α : Type} (key : α → String) (L R : List α) :
    upsertAllBy key (upsertAllBy key L R) R = upsertAllBy key L R := by
  have hpres : ∀ r ∈ R, ∃ x ∈ upsertAllBy key L R, key x = key r := by
    intro r hr
    exact upsertAll_exists_key key R L (key r) (Or.inr ⟨r, hr, rfl⟩)
  rw [upsertAll_present_eq_map key R _ hpres]
  have hfix : ∀ x ∈ upsertAllBy key L R,
      (lastWith key R (key x)).getD x = x := by
    intro x hx
    by_cases hk : key x ∈ R.map key
    · rw [upsertAll_mem_last key R L x hx hk]
      rfl
    · have hnone : lastWith key R (key x) = none := by
        unfold lastWith
        rw [List.find?_eq_none]
        intro y hy hc
        have hyR : y ∈ R := List.mem_reverse.mp hy
        exact hk (List.mem_map.mpr ⟨y, hyR, by simpa using hc.symm⟩)
      rw [hnone]
      rfl
  rw [List.map_congr_left (fun a ha => hfix a ha), List.map_id']

/-! ## Keys of the working maps, duplicate-freedom, and the
entries/rows bridge (support for the idempotence claim) -/

/-- The key list of a working map. -/
def mkeys {α : Type} (m : List (String × α)) : List String :=
  m.map (fun p => p.1)

theorem mkeys_mset {α : Type} (m : List (String × α)) (k : String) (v : α) :
    mkeys (mset m k v) = mkeys m ∨
      (mkeys (mset m k v) = mkeys m ++ [k] ∧ k ∉ mkeys m) := by
  unfold mset
  split
  case isTrue hs =>
    left
    unfold mkeys
    rw [List.map_map]
    apply List.map_congr_left
    intro p _
    simp only [Function.comp]
    by_cases hp : p.1 = k
    · simp [hp]
    · simp [hp]
  case isFalse hs =>
    right
    refine ⟨by unfold mkeys; rw [List.map_append]; rfl, ?_⟩
    intro hk
    obtain ⟨p, hp, hpk⟩ := List.mem_map.mp hk
    have hnone : m.find? (fun q => q.1 == k) = none :=
      Option.not_isSome_iff_eq_none.mp hs
    have := List.find?_eq_none.mp hnone p hp
    simp [hpk] at this

theorem mkeys_sub_mset {α : Type} (m : List (String × α)) (k : String)
    (v : α) : ∀ k' ∈ mkeys (mset m k v), k' ∈ mkeys m ∨ k' = k := by
  intro k' hk'
  rcases mkeys_mset m k v with h | ⟨h, _⟩
  · rw [h] at hk'; exact Or.inl hk'
  · rw [h] at hk'
    rcases List.mem_append.mp hk' with h1 | h1
    · exact Or.inl h1
    · exact Or.inr (by simpa using h1)

theorem mem_mkeys_mset_self {α : Type} (m : List (String × α)) (k : String)
    (v : α) : k ∈ mkeys (mset m k v) :=
  List.mem_map.mpr ⟨(k, v), mget_some_mem (mget_mset_self m k v), rfl⟩

theorem mkeys_mset_mono {α : Type} (m : List (String × α)) (k k' : String)
    (v : α) (h : k' ∈ mkeys m) : k' ∈ mkeys (mset m k v) := by
  rcases mkeys_mset m k v with h1 | ⟨h1, _⟩
  · rw [h1]; exact h
  · rw [h1]; exact List.mem_append.mpr (Or.inl h)

theorem mget_isSome_iff {α : Type} (m : List (String × α)) (k : String) :
    (mget m k).isSome = true ↔ k ∈ mkeys m := by
  constructor
  · intro h
    obtain ⟨v, hv⟩ := Option.isSome_iff_exists.mp h
    exact List.mem_map.mpr ⟨(k, v), mget_some_mem hv, rfl⟩
  · intro h
    obtain ⟨p, hp, hpk⟩ := List.mem_map.mp h
    unfold mget
    cases hf : m.find? (fun q => q.1 == k) with
    | some q => rfl
    | none =>
      have := List.find?_eq_none.mp hf p hp
      simp [hpk] at this

theorem mkeys_nodup_mset {α : Type} {m : List (String × α)} (k : String)
    (v : α) (h : (mkeys m).Nodup) : (mkeys (mset m k v)).Nodup := by
  rcases mkeys_mset m k v with h1 | ⟨h1, h2⟩
  · rw [h1]; exact h
  · rw [h1]
    rw [List.nodup_append]
    refine ⟨h, List.nodup_singleton k, ?_⟩
    intro a ha hb
    have : a = k := by simpa using hb
    subst this
    exact h2 ha

theorem mkeys_nodup_foldl_mset {α : Type} :
    ∀ (entries acc : List (String × α)), (mkeys acc).Nodup →
      (mkeys (entries.foldl (fun m q => mset m q.1 q.2) acc)).Nodup := by
  intro entries
  induction entries with
  | nil => intro acc h; exact h
  | cons q rest ih =>
    intro acc h
    exact ih (mset acc q.1 q.2) (mkeys_nodup_mset q.1 q.2 h)

theorem mkMap_keys_nodup {α : Type} (entries : List (String × α)) :
    (mkeys (mkMap entries)).Nodup :=
  mkeys_nodup_foldl_mset entries [] List.nodup_nil

theorem foldl_mset_mkeys_sub {α : Type} :
    ∀ (entries acc : List (String × α)) (k : String),
      k ∈ mkeys (entries.foldl (fun m q => mset m q.1 q.2) acc) →
      k ∈ mkeys acc ∨ k ∈ entries.map (fun p => p.1) := by
  intro entries
  induction entries with
  | nil => intro acc k h; exact Or.inl h
  | cons q rest ih =>
    intro acc k h
    rcases ih (mset acc q.1 q.2) k h with h1 | h1
    · rcases mkeys_sub_mset acc q.1 q.2 k h1 with h2 | h2
      · exact Or.inl h2
      · exact Or.inr (by simp [h2])
    · exact Or.inr (by simp [h1])

theorem mkMap_mkeys_sub {α : Type} (entries : List (String × α))
    (k : String) (h : k ∈ mkeys (mkMap entries)) :
    k ∈ entries.map (fun p => p.1) := by
  rcases foldl_mset_mkeys_sub entries [] k h with h1 | h1
  · cases h1
  · exact h1

theorem mkMap_mem {α : Type} {entries : List (String × α)}
    {p : String × α} (h : p ∈ mkMap entries) : p ∈ entries :=
  mkMap_forall (fun q hq => hq) p h

theorem foldl_mset_mkeys_mem {α : Type} :
    ∀ (entries acc : List (String × α)) (k : String),
      k ∈ mkeys acc ∨ k ∈ entries.map (fun p => p.1) →
      k ∈ mkeys (entries.foldl (fun m q => mset m q.1 q.2) acc) := by
  intro entries
  induction entries with
  | nil =>
    intro acc k h
    rcases h with h | h
    · exact h
    · cases h
  | cons q rest ih =>
    intro acc k h
    apply ih (mset acc q.1 q.2) k
    rcases h with h | h
    · exact Or.inl (mkeys_mset_mono acc q.1 k q.2 h)
    · rw [List.map_cons] at h
      rcases List.mem_cons.mp h with h1 | h1
      · subst h1
        exact Or.inl (mem_mkeys_mset_self acc q.1 q.2)
      · exact Or.inr h1

theorem mkMap_mem_mkeys {α : Type} (entries : List (String × α))
    (k : String) (h : k ∈ entries.map (fun p => p.1)) :
    k ∈ mkeys (mkMap entries) :=
  foldl_mset_mkeys_mem entries [] k (Or.inr h)

theorem mget_of_mem_nodup {α : Type} :
    ∀ (m : List (String × α)), (mkeys m).Nodup →
      ∀ x ∈ m, mget m x.1 = some x.2 := by
  intro m
  induction m with
  | nil => intro _ x hx; cases hx
  | cons q rest ih =>
    intro h x hx
    have h' : q.1 ∉ mkeys rest ∧ (mkeys rest).Nodup := by
      have hcons : mkeys (q :: rest) = q.1 :: mkeys rest := rfl
      rw [hcons] at h
      exact List.nodup_cons.mp h
    rcases List.mem_cons.mp hx with rfl | hx'
    · unfold mget
      rw [List.find?_cons_of_pos rest (by simp)]
      rfl
    · have hq1 : q.1 ≠ x.1 := by
        intro hc
        exact h'.1 (hc ▸ List.mem_map.mpr ⟨x, hx', rfl⟩)
      unfold mget
      rw [List.find?_cons_of_neg rest (by simp [hq1])]
      exact ih h'.2 x hx'

/-- A persisted token row materialized by the preload round-trips back to
the same row. -/
theorem tokenOfRow_toRow (r : TokenRow) (a : Nat) :
    (tokenOfRow r a).toRow = r := by
  obtain ⟨i, o, nm, im, u, ex, c⟩ := r
  cases o <;> rfl

/-- In a working map whose key list is duplicate-free and whose entries
are well-formed, every persisted row image is recoverable by `mget` at
the row's id. -/
theorem token_row_mem_mget {m : List (String × Token)}
    (hWF : tokensWF m) (hN : (mkeys m).Nodup) {r : TokenRow}
    (hr : r ∈ m.map (fun p => p.2.toRow)) :
    (mget m r.id).map Token.toRow = some r := by
  obtain ⟨p, hp, rfl⟩ := List.mem_map.mp hr
  have hid : p.2.toRow.id = p.1 := hWF p hp
  rw [hid, mget_of_mem_nodup m hN p hp]
  rfl

theorem lastWith_mem {α : Type} {key : α → String} {R : List α}
    {c : String} {y : α} (h : lastWith key R c = some y) :
    y ∈ R ∧ key y = c := by
  unfold lastWith at h
  exact ⟨List.mem_reverse.mp (List.mem_of_find?_eq_some h),
    by simpa using List.find?_some h⟩

theorem lastWith_isSome {α : Type} (key : α → String) (R : List α)
    (c : String) (h : ∃ r ∈ R, key r = c) :
    ∃ y, lastWith key R c = some y := by
  obtain ⟨r, hr, hk⟩ := h
  unfold lastWith
  cases hf : R.reverse.find? (fun x => key x == c) with
  | some y => exact ⟨y, rfl⟩
  | none =>
    have := List.find?_eq_none.mp hf r (List.mem_reverse.mpr hr)
    simp [hk] at this

/-! ## Contract-singleton stability and frame lemmas across the loop -/

theorem getOrCreateContractEntity_of_cache (s : SaveState)
    (c : GoodContract) (h : s.cache = some c) :
    getOrCreateContractEntity s = (c, s) := by
  simp only [getOrCreateContractEntity, h]

theorem getOrCreateContractEntity_fst_cache (s : SaveState) :
    (getOrCreateContractEntity s).2.cache =
      some (getOrCreateContractEntity s).1 := by
  simp only [getOrCreateContractEntity]
  split
  · rename_i c heq
    simp [heq]
  · split <;> rfl

theorem getOrCreateContractEntity_store_tables (s : SaveState) :
    (getOrCreateContractEntity s).2.store.owners = s.store.owners ∧
    (getOrCreateContractEntity s).2.store.tokens = s.store.tokens ∧
    (getOrCreateContractEntity s).2.store.transfers = s.store.transfers := by
  simp only [getOrCreateContractEntity]
  split
  · exact ⟨rfl, rfl, rfl⟩
  · split <;> exact ⟨rfl, rfl, rfl⟩

theorem resolveToken_cache_good (s : SaveState) (tid : Nat) :
    ((resolveToken s tid).2.cache = s.cache ∧
      (resolveToken s tid).2.store.good = s.store.good) ∨
    (resolveToken s tid).2.cache =
      some (getOrCreateContractEntity s).1 := by
  simp only [resolveToken]
  split
  · exact Or.inl ⟨rfl, rfl⟩
  · exact Or.inr (getOrCreateContractEntity_fst_cache s)

theorem resolveToken_store_tables (s : SaveState) (tid : Nat) :
    (resolveToken s tid).2.store.owners = s.store.owners ∧
    (resolveToken s tid).2.store.tokens = s.store.tokens ∧
    (resolveToken s tid).2.store.transfers = s.store.transfers := by
  simp only [resolveToken]
  split
  · exact ⟨rfl, rfl, rfl⟩
  · exact getOrCreateContractEntity_store_tables s

theorem processEvent_store (cfg : Config) (s : SaveState) (e : ENSData) :
    (processEvent cfg s e).store =
      (resolveToken (resolveOwner (resolveOwner s e.fromAddr).2
        e.toAddr).2 e.tokenId).2.store := by
  simp only [processEvent]
  rcases e.expires with _ | n
  · dsimp only
    rw [addTransfer_store]
  · dsimp only
    by_cases hn : n = 0
    · rw [if_neg (by omega), addTransfer_store]
    · rw [if_pos hn]
      by_cases hlt : n * 1000 < cfg.now
      · rw [if_pos hlt]
      · rw [if_neg hlt, addTransfer_store]

theorem processEvent_cache (cfg : Config) (s : SaveState) (e : ENSData) :
    (processEvent cfg s e).cache =
      (resolveToken (resolveOwner (resolveOwner s e.fromAddr).2
        e.toAddr).2 e.tokenId).2.cache := by
  simp only [processEvent]
  rcases e.expires with _ | n
  · dsimp only
    rw [addTransfer_cache]
  · dsimp only
    by_cases hn : n = 0
    · rw [if_neg (by omega), addTransfer_cache]
    · rw [if_pos hn]
      by_cases hlt : n * 1000 < cfg.now
      · rw [if_pos hlt]
      · rw [if_neg hlt, addTransfer_cache]

theorem processEvent_store_tables (cfg : Config) (s : SaveState)
    (e : ENSData) :
    (processEvent cfg s e).store.owners = s.store.owners ∧
    (processEvent cfg s e).store.tokens = s.store.tokens ∧
    (processEvent cfg s e).store.transfers = s.store.transfers := by
  have h2 : (resolveOwner (resolveOwner s e.fromAddr).2 e.toAddr).2.store
      = s.store := by
    rw [(resolveOwner_frame _ _).2.2.1, (resolveOwner_frame _ _).2.2.1]
  refine ⟨?_, ?_, ?_⟩ <;> rw [processEvent_store]
  · rw [(resolveToken_store_tables _ _).1, h2]
  · rw [(resolveToken_store_tables _ _).2.1, h2]
  · rw [(resolveToken_store_tables _ _).2.2, h2]

theorem processEvents_store_tables (cfg : Config) :
    ∀ (arr : List ENSData) (s : SaveState),
      (processEvents cfg s arr).store.owners = s.store.owners ∧
      (processEvents cfg s arr).store.tokens = s.store.tokens ∧
      (processEvents cfg s arr).store.transfers = s.store.transfers := by
  intro arr
  induction arr with
  | nil => intro s; exact ⟨rfl, rfl, rfl⟩
  | cons e rest ih =>
    intro s
    have h1 := processEvent_store_tables cfg s e
    have h2 := ih (processEvent cfg s e)
    exact ⟨h2.1.trans h1.1, h2.2.1.trans h1.2.1, h2.2.2.trans h1.2.2⟩

theorem processEvent_cache_good (cfg : Config) (s : SaveState)
    (e : ENSData) :
    ((processEvent cfg s e).cache = s.cache ∧
      (processEvent cfg s e).store.good = s.store.good) ∨
    (processEvent cfg s e).cache =
      some (getOrCreateContractEntity s).1 := by
  have hc2 : (resolveOwner (resolveOwner s e.fromAddr).2 e.toAddr).2.cache
      = s.cache := by
    rw [(resolveOwner_frame _ _).2.2.2.1, (resolveOwner_frame _ _).2.2.2.1]
  have hg2 : (resolveOwner (resolveOwner s e.fromAddr).2 e.toAddr).2.store
      = s.store := by
    rw [(resolveOwner_frame _ _).2.2.1, (resolveOwner_frame _ _).2.2.1]
  have hfst : (getOrCreateContractEntity
      (resolveOwner (resolveOwner s e.fromAddr).2 e.toAddr).2).1 =
      (getOrCreateContractEntity s).1 :=
    getOrCreateContractEntity_fst_congr hc2 (congrArg Store.good hg2)
  rcases resolveToken_cache_good
      (resolveOwner (resolveOwner s e.fromAddr).2 e.toAddr).2 e.tokenId
    with ⟨h1, h2⟩ | h1
  · left
    constructor
    · rw [processEvent_cache, h1, hc2]
    · rw [processEvent_store, h2, hg2]
  · right
    rw [processEvent_cache, h1, hfst]

theorem processEvent_contract_fst (cfg : Config) (s : SaveState)
    (e : ENSData) :
    (getOrCreateContractEntity (processEvent cfg s e)).1 =
      (getOrCreateContractEntity s).1 := by
  rcases processEvent_cache_good cfg s e with ⟨hc, hg⟩ | hc
  · exact getOrCreateContractEntity_fst_congr hc hg
  · rw [getOrCreateContractEntity_of_cache (processEvent cfg s e) _ hc]

theorem processEvents_contract_fst (cfg : Config) :
    ∀ (arr : List ENSData) (s : SaveState),
      (getOrCreateContractEntity (processEvents cfg s arr)).1 =
        (getOrCreateContractEntity s).1 := by
  intro arr
  induction arr with
  | nil => intro s; rfl
  | cons e rest ih =>
    intro s
    exact (ih (processEvent cfg s e)).trans
      (processEvent_contract_fst cfg s e)

/-! ## Presence of token keys across the loop -/

theorem mget_isSome_mset {α : Type} (m : List (String × α))
    (k k' : String) (v : α) (h : (mget m k').isSome = true) :
    (mget (mset m k v) k').isSome = true := by
  by_cases hk : k' = k
  · subst hk; rw [mget_mset_self]; rfl
  · rw [mget_mset_ne m k k' v hk]; exact h

theorem resolveToken_tokens_isSome (s : SaveState) (tid : Nat)
    (k : String) (h : (mget s.tokens k).isSome = true) :
    (mget (resolveToken s tid).2.tokens k).isSome = true := by
  simp only [resolveToken]
  cases hm : mget s.tokens (toString tid) with
  | some t => simp only [hm]; exact h
  | none =>
    simp only [hm]
    exact mget_isSome_mset _ _ _ _
      (by rw [getOrCreateContractEntity_tokens]; exact h)

theorem processEvent_tokens_isSome (cfg : Config) (s : SaveState)
    (e : ENSData) (k : String) (h : (mget s.tokens k).isSome = true) :
    (mget (processEvent cfg s e).tokens k).isSome = true := by
  have h3 := resolveToken_tokens_isSome
    (resolveOwner (resolveOwner s e.fromAddr).2 e.toAddr).2 e.tokenId k
    (by rw [(resolveOwner_frame _ _).1, (resolveOwner_frame _ _).1]; exact h)
  simp only [processEvent]
  rcases e.expires with _ | n
  · dsimp only
    rw [addTransfer_tokens]
    exact mget_isSome_mset _ _ _ _ h3
  · dsimp only
    by_cases hn : n = 0
    · rw [if_neg (by omega), addTransfer_tokens]
      exact mget_isSome_mset _ _ _ _ h3
    · rw [if_pos hn]
      by_cases hlt : n * 1000 < cfg.now
      · rw [if_pos hlt]
        exact mget_isSome_mset _ _ _ _ (mget_isSome_mset _ _ _ _ h3)
      · rw [if_neg hlt, addTransfer_tokens]
        exact mget_isSome_mset _ _ _ _
          (mget_isSome_mset _ _ _ _ (mget_isSome_mset _ _ _ _ h3))

theorem processEvents_tokens_isSome (cfg : Config) :
    ∀ (arr : List ENSData) (s : SaveState) (k : String),
      (mget s.tokens k).isSome = true →
      (mget (processEvents cfg s arr).tokens k).isSome = true := by
  intro arr
  induction arr with
  | nil => intro s k h; exact h
  | cons e rest ih =>
    intro s k h
    exact ih (processEvent cfg s e) k
      (processEvent_tokens_isSome cfg s e k h)

theorem processEvent_token_isSome_self (cfg : Config) (s : SaveState)
    (e : ENSData) (hWF : s.WF) :
    (mget (processEvent cfg s e).tokens
      (toString e.tokenId)).isSome = true := by
  have h := processEvent_token_row_self cfg e hWF
  cases hm : mget (processEvent cfg s e).tokens (toString e.tokenId) with
  | none => rw [hm] at h; cases h
  | some t => rfl

theorem processEvents_token_cover (cfg : Config) :
    ∀ (arr : List ENSData) (s : SaveState), s.WF →
      ∀ e ∈ arr, (mget (processEvents cfg s arr).tokens
        (toString e.tokenId)).isSome = true := by
  intro arr
  induction arr with
  | nil => intro s _ e he; cases he
  | cons e' rest ih =>
    intro s hWF e he
    rcases List.mem_cons.mp he with rfl | he'
    · exact processEvents_tokens_isSome cfg rest (processEvent cfg s e) _
        (processEvent_token_isSome_self cfg s e hWF)
    · exact ih (processEvent cfg s e') (processEvent_WF cfg e' hWF) e he'

/-! ## A loop whose token keys are all pre-fetched never writes during
the loop: the store and the singleton cache are untouched -/

theorem resolveToken_found_frame (s : SaveState) (tid : Nat)
    (h : (mget s.tokens (toString tid)).isSome = true) :
    (resolveToken s tid).2.store = s.store ∧
    (resolveToken s tid).2.cache = s.cache := by
  simp only [resolveToken]
  cases hm : mget s.tokens (toString tid) with
  | none => rw [hm] at h; simp at h
  | some t => simp [hm]

theorem processEvent_found_frame (cfg : Config) (s : SaveState)
    (e : ENSData) (h : (mget s.tokens (toString e.tokenId)).isSome = true) :
    (processEvent cfg s e).store = s.store ∧
    (processEvent cfg s e).cache = s.cache := by
  have hmg : mget (resolveOwner (resolveOwner s e.fromAddr).2
      e.toAddr).2.tokens (toString e.tokenId) =
      mget s.tokens (toString e.tokenId) := by
    rw [(resolveOwner_frame _ _).1, (resolveOwner_frame _ _).1]
  have hf := resolveToken_found_frame
    (resolveOwner (resolveOwner s e.fromAddr).2 e.toAddr).2 e.tokenId
    (by rw [hmg]; exact h)
  constructor
  · rw [processEvent_store, hf.1, (resolveOwner_frame _ _).2.2.1,
      (resolveOwner_frame _ _).2.2.1]
  · rw [processEvent_cache, hf.2, (resolveOwner_frame _ _).2.2.2.1,
      (resolveOwner_frame _ _).2.2.2.1]

theorem processEvents_untouched (cfg : Config) :
    ∀ (arr : List ENSData) (s : SaveState),
      (∀ e ∈ arr, (mget s.tokens (toString e.tokenId)).isSome = true) →
      (processEvents cfg s arr).store = s.store ∧
      (processEvents cfg s arr).cache = s.cache := by
  intro arr
  induction arr with
  | nil => intro s _; exact ⟨rfl, rfl⟩
  | cons e rest ih =>
    intro s h
    have hstep := processEvent_found_frame cfg s e (h e (by simp))
    have hrest := ih (processEvent cfg s e) (by
      intro e' he'
      exact processEvent_tokens_isSome cfg s e (toString e'.tokenId)
        (h e' (List.mem_cons_of_mem _ he')))
    exact ⟨hrest.1.trans hstep.1, hrest.2.trans hstep.2⟩

/-! ## Owner keys across the loop -/

theorem resolveOwner_owner_key_present (s : SaveState)
    (addr : Option String) (hO : ownersWF s.owners)
    (ht : truthy addr = true) :
    lower (orEmpty addr) ∈ mkeys (resolveOwner s addr).2.owners := by
  simp only [resolveOwner]
  split
  case isTrue hc =>
    exact mem_mkeys_mset_self _ _ _
  case isFalse hc =>
    cases hm : mget s.owners (orEmpty addr) with
    | none => exact absurd ⟨ht, hm⟩ hc
    | some o =>
      have hwf := hO _ (mget_some_mem hm)
      rw [hwf.2.1]
      exact List.mem_map.mpr ⟨(orEmpty addr, o), mget_some_mem hm, rfl⟩

theorem resolveOwner_owner_keys_mono (s : SaveState) (addr : Option String)
    (k : String) (h : k ∈ mkeys s.owners) :
    k ∈ mkeys (resolveOwner s addr).2.owners := by
  simp only [resolveOwner]
  split
  · exact mkeys_mset_mono _ _ _ _ h
  · exact h

theorem resolveOwner_owner_keys_sub (s : SaveState) (addr : Option String)
    (k : String) (h : k ∈ mkeys (resolveOwner s addr).2.owners) :
    k ∈ mkeys s.owners ∨
      (truthy addr = true ∧ k = lower (orEmpty addr)) := by
  revert h
  simp only [resolveOwner]
  split
  case isTrue hc =>
    intro h
    rcases mkeys_sub_mset _ _ _ _ h with h1 | h1
    · exact Or.inl h1
    · exact Or.inr ⟨hc.1, h1⟩
  case isFalse hc =>
    intro h
    exact Or.inl h

theorem processEvent_owner_keys_mono (cfg : Config) (s : SaveState)
    (e : ENSData) (k : String) (h : k ∈ mkeys s.owners) :
    k ∈ mkeys (processEvent cfg s e).owners := by
  rw [processEvent_owners]
  exact resolveOwner_owner_keys_mono _ _ _
    (resolveOwner_owner_keys_mono _ _ _ h)

theorem processEvent_owner_key_present (cfg : Config) (s : SaveState)
    (e : ENSData) (hWF : s.WF) :
    (truthy e.fromAddr = true →
      lower (orEmpty e.fromAddr) ∈ mkeys (processEvent cfg s e).owners) ∧
    (truthy e.toAddr = true →
      lower (orEmpty e.toAddr) ∈ mkeys (processEvent cfg s e).owners) := by
  rw [processEvent_owners]
  constructor
  · intro ht
    exact resolveOwner_owner_keys_mono _ _ _
      (resolveOwner_owner_key_present s e.fromAddr hWF.1 ht)
  · intro ht
    exact resolveOwner_owner_key_present _ e.toAddr
      (resolveOwner_WF e.fromAddr hWF.1) ht

theorem processEvent_owner_keys_sub (cfg : Config) (s : SaveState)
    (e : ENSData) (k : String)
    (h : k ∈ mkeys (processEvent cfg s e).owners) :
    k ∈ mkeys s.owners ∨
      (truthy e.fromAddr = true ∧ k = lower (orEmpty e.fromAddr)) ∨
      (truthy e.toAddr = true ∧ k = lower (orEmpty e.toAddr)) := by
  rw [processEvent_owners] at h
  rcases resolveOwner_owner_keys_sub _ _ _ h with h1 | h1
  · rcases resolveOwner_owner_keys_sub _ _ _ h1 with h2 | h2
    · exact Or.inl h2
    · exact Or.inr (Or.inl h2)
  · exact Or.inr (Or.inr h1)

theorem processEvents_owner_keys_mono (cfg : Config) :
    ∀ (arr : List ENSData) (s : SaveState) (k : String),
      k ∈ mkeys s.owners →
      k ∈ mkeys (processEvents cfg s arr).owners := by
  intro arr
  induction arr with
  | nil => intro s k h; exact h
  | cons e rest ih =>
    intro s k h
    exact ih (processEvent cfg s e) k
      (processEvent_owner_keys_mono cfg s e k h)

theorem processEvents_owner_key_present (cfg : Config) :
    ∀ (arr : List ENSData) (s : SaveState), s.WF → ∀ e ∈ arr,
      (truthy e.fromAddr = true →
        lower (orEmpty e.fromAddr) ∈
          mkeys (processEvents cfg s arr).owners) ∧
      (truthy e.toAddr = true →
        lower (orEmpty e.toAddr) ∈
          mkeys (processEvents cfg s arr).owners) := by
  intro arr
  induction arr with
  | nil => intro s _ e he; cases he
  | cons e' rest ih =>
    intro s hWF e he
    rcases List.mem_cons.mp he with rfl | he'
    · have hp := processEvent_owner_key_present cfg s e hWF
      exact ⟨fun ht => processEvents_owner_keys_mono cfg rest _ _ (hp.1 ht),
        fun ht => processEvents_owner_keys_mono cfg rest _ _ (hp.2 ht)⟩
    · exact ih (processEvent cfg s e') (processEvent_WF cfg e' hWF) e he'

theorem processEvents_owner_keys_sub (cfg : Config) :
    ∀ (arr : List ENSData) (s : SaveState) (k : String),
      k ∈ mkeys (processEvents cfg s arr).owners →
      k ∈ mkeys s.owners ∨ ∃ e, e ∈ arr ∧
        ((truthy e.fromAddr = true ∧ k = lower (orEmpty e.fromAddr)) ∨
         (truthy e.toAddr = true ∧ k = lower (orEmpty e.toAddr))) := by
  intro arr
  induction arr with
  | nil => intro s k h; exact Or.inl h
  | cons e rest ih =>
    intro s k h
    rcases ih (processEvent cfg s e) k h with h1 | ⟨e', he', h2⟩
    · rcases processEvent_owner_keys_sub cfg s e k h1 with h2 | h2 | h2
      · exact Or.inl h2
      · exact Or.inr ⟨e, by simp, Or.inl h2⟩
      · exact Or.inr ⟨e, by simp, Or.inr h2⟩
    · exact Or.inr ⟨e', List.mem_cons_of_mem _ he', h2⟩

/-! ## Token keys across the loop -/

theorem resolveToken_token_keys_sub (s : SaveState) (tid : Nat)
    (k : String) (h : k ∈ mkeys (resolveToken s tid).2.tokens) :
    k ∈ mkeys s.tokens ∨ k = toString tid := by
  revert h
  simp only [resolveToken]
  cases hm : mget s.tokens (toString tid) with
  | some t => intro h; exact Or.inl h
  | none =>
    intro h
    have hbase : mkeys (getOrCreateContractEntity s).2.tokens =
        mkeys s.tokens := by rw [getOrCreateContractEntity_tokens]
    rcases mkeys_sub_mset _ _ _ _ h with h1 | h1
    · rw [hbase] at h1; exact Or.inl h1
    · exact Or.inr h1

theorem processEvent_token_keys_sub (cfg : Config) (s : SaveState)
    (e : ENSData) (hWF : s.WF) (k : String)
    (h : k ∈ mkeys (processEvent cfg s e).tokens) :
    k ∈ mkeys s.tokens ∨ k = toString e.tokenId := by
  by_cases hk : k = toString e.tokenId
  · exact Or.inr hk
  · left
    have := processEvent_tokens_other cfg e k hk hWF
    rw [← mget_isSome_iff, ← this, mget_isSome_iff]
    exact h

theorem processEvents_token_keys_sub (cfg : Config) :
    ∀ (arr : List ENSData) (s : SaveState), s.WF → ∀ k : String,
      k ∈ mkeys (processEvents cfg s arr).tokens →
      k ∈ mkeys s.tokens ∨ k ∈ tokensIds arr := by
  intro arr
  induction arr with
  | nil => intro s _ k h; exact Or.inl h
  | cons e rest ih =>
    intro s hWF k h
    rcases ih (processEvent cfg s e) (processEvent_WF cfg e hWF) k h
      with h1 | h1
    · rcases processEvent_token_keys_sub cfg s e hWF k h1 with h2 | h2
      · exact Or.inl h2
      · exact Or.inr (by simp [tokensIds, h2])
    · refine Or.inr ?_
      have h2 : k ∈ List.map (fun e => toString e.tokenId) rest := by
        simpa [tokensIds] using h1
      exact List.mem_cons_of_mem _ h2

/-! ## Duplicate-freedom of the token keys across the loop -/

theorem resolveToken_tokens_nodup (s : SaveState) (tid : Nat)
    (h : (mkeys s.tokens).Nodup) :
    (mkeys (resolveToken s tid).2.tokens).Nodup := by
  simp only [resolveToken]
  cases hm : mget s.tokens (toString tid) with
  | some t => simp only [hm]; exact h
  | none =>
    simp only [hm]
    apply mkeys_nodup_mset
    rw [getOrCreateContractEntity_tokens]
    exact h

theorem processEvent_tokens_nodup (cfg : Config) (s : SaveState)
    (e : ENSData) (h : (mkeys s.tokens).Nodup) :
    (mkeys (processEvent cfg s e).tokens).Nodup := by
  have h3 := resolveToken_tokens_nodup
    (resolveOwner (resolveOwner s e.fromAddr).2 e.toAddr).2 e.tokenId
    (by rw [(resolveOwner_frame _ _).1, (resolveOwner_frame _ _).1]; exact h)
  simp only [processEvent]
  rcases e.expires with _ | n
  · dsimp only
    rw [addTransfer_tokens]
    exact mkeys_nodup_mset _ _ h3
  · dsimp only
    by_cases hn : n = 0
    · rw [if_neg (by omega), addTransfer_tokens]
      exact mkeys_nodup_mset _ _ h3
    · rw [if_pos hn]
      by_cases hlt : n * 1000 < cfg.now
      · rw [if_pos hlt]
        exact mkeys_nodup_mset _ _ (mkeys_nodup_mset _ _ h3)
      · rw [if_neg hlt, addTransfer_tokens]
        exact mkeys_nodup_mset _ _
          (mkeys_nodup_mset _ _ (mkeys_nodup_mset _ _ h3))

theorem processEvents_tokens_nodup (cfg : Config) :
    ∀ (arr : List ENSData) (s : SaveState),
      (mkeys s.tokens).Nodup →
      (mkeys (processEvents cfg s arr).tokens).Nodup := by
  intro arr
  induction arr with
  | nil => intro s h; exact h
  | cons e rest ih =>
    intro s h
    exact ih (processEvent cfg s e) (processEvent_tokens_nodup cfg s e h)

/-! ## Content and coverage of the preloaded maps -/

theorem preloadTokens_mem_spec (st : Store) (ids : List String) (a0 : Nat)
    (k : String) (t : Token)
    (h : mget (preloadTokens st ids a0).1 k = some t) :
    ∃ x ∈ st.tokens, x.id = k ∧ ids.contains x.id = true ∧ t.toRow = x := by
  have hmem : (k, t) ∈ (preloadTokens st ids a0).1 := mget_some_mem h
  have hent : (k, t) ∈
      ((st.tokens.filter (fun r => ids.contains r.id)).enum).map
        (fun p => (p.2.id, tokenOfRow p.2 (a0 + 2 * p.1))) :=
    mkMap_mem hmem
  obtain ⟨p, hp, hpe⟩ := List.mem_map.mp hent
  have hk : p.2.id = k := congrArg Prod.fst hpe
  have ht : tokenOfRow p.2 (a0 + 2 * p.1) = t := congrArg Prod.snd hpe
  have hrow : p.2 ∈ st.tokens.filter (fun r => ids.contains r.id) :=
    List.getElem?_mem (List.mem_enum_iff_getElem?.mp hp)
  have hf := List.mem_filter.mp hrow
  refine ⟨p.2, hf.1, hk, hf.2, ?_⟩
  rw [← ht, tokenOfRow_toRow]

theorem preloadTokens_isSome (st : Store) (ids : List String) (a0 : Nat)
    (k : String) (h1 : ∃ x ∈ st.tokens, x.id = k ∧
      ids.contains x.id = true) :
    (mget (preloadTokens st ids a0).1 k).isSome = true := by
  obtain ⟨x, hx, hid, hc⟩ := h1
  rw [mget_isSome_iff]
  show k ∈ mkeys (mkMap _)
  apply mkMap_mem_mkeys
  rw [List.map_map]
  have hrow : x ∈ st.tokens.filter (fun r => ids.contains r.id) :=
    List.mem_filter.mpr ⟨hx, hc⟩
  obtain ⟨i, hi⟩ := List.mem_iff_getElem?.mp hrow
  refine List.mem_map.mpr ⟨(i, x), List.mem_enum_iff_getElem?.mpr hi, ?_⟩
  exact hid

theorem preloadOwners_keys_sub (st : Store) (ids : List String) (a0 : Nat)
    (k : String) (h : k ∈ mkeys (preloadOwners st ids a0).1) :
    ∃ x ∈ st.owners, x.id = k := by
  have h1 : k ∈ (((st.owners.filter (fun r => ids.contains r.id)).enum).map
      (fun p => (p.2.id, ({ id := p.2.id, alloc := a0 + p.1 } : Owner)))).map
      (fun p => p.1) := mkMap_mkeys_sub _ k h
  rw [List.map_map] at h1
  obtain ⟨q, hq, hqk⟩ := List.mem_map.mp h1
  have hrow : q.2 ∈ st.owners.filter (fun r => ids.contains r.id) :=
    List.getElem?_mem (List.mem_enum_iff_getElem?.mp hq)
  exact ⟨q.2, (List.mem_filter.mp hrow).1, hqk⟩

theorem preloadTokens_keys_sub (st : Store) (ids : List String) (a0 : Nat)
    (k : String) (h : k ∈ mkeys (preloadTokens st ids a0).1) :
    ∃ x ∈ st.tokens, x.id = k ∧ ids.contains k = true := by
  have h1 : k ∈ (((st.tokens.filter (fun r => ids.contains r.id)).enum).map
      (fun p => (p.2.id, tokenOfRow p.2 (a0 + 2 * p.1)))).map
      (fun p => p.1) := mkMap_mkeys_sub _ k h
  rw [List.map_map] at h1
  obtain ⟨q, hq, hqk⟩ := List.mem_map.mp h1
  have hrow : q.2 ∈ st.tokens.filter (fun r => ids.contains r.id) :=
    List.getElem?_mem (List.mem_enum_iff_getElem?.mp hq)
  have hf := List.mem_filter.mp hrow
  exact ⟨q.2, hf.1, hqk, hqk ▸ hf.2⟩

/-! ## The two phases of a `saveENSData` run, named -/

/-- The working state at the start of one `saveENSData` run, after the
bulk pre-fetch of the two working maps. -/
def initSaveState (st : Store) (cache : Option GoodContract)
    (arr : List ENSData) : SaveState :=
  let pT := preloadTokens st (tokensIds arr) 0
  let pO := preloadOwners st (ownersIds arr) pT.2
  { store := st, cache := cache, owners := pO.1, tokens := pT.1,
    transfers := [], nextAlloc := pO.2, enrichCalls := [],
    writeLog := [] }

/-- The working state after the reconciliation loop of one run. -/
def loopEnd (cfg : Config) (st : Store) (cache : Option GoodContract)
    (arr : List ENSData) : SaveState :=
  processEvents cfg (initSaveState st cache arr) arr

/-- `saveENSData` is the loop followed by the three bulk upserts. -/
theorem saveENSData_loopEnd (cfg : Config) (st : Store)
    (cache : Option GoodContract) (arr : List ENSData) :
    saveENSData cfg st cache arr =
      { loopEnd cfg st cache arr with
          store := { (loopEnd cfg st cache arr).store with
                       owners := upsertAllBy OwnerRow.id
                         (loopEnd cfg st cache arr).store.owners
                         ((loopEnd cfg st cache arr).owners.map
                           (fun p => p.2.toRow)),
                       tokens := upsertAllBy TokenRow.id
                         (loopEnd cfg st cache arr).store.tokens
                         ((loopEnd cfg st cache arr).tokens.map
                           (fun p => p.2.toRow)),
                       transfers := upsertAllBy TransferRow.id
                         (loopEnd cfg st cache arr).store.transfers
                         ((loopEnd cfg st cache arr).transfers.map
                           Transfer.toRow) },
          writeLog := (loopEnd cfg st cache arr).writeLog ++
            [WriteKind.saveOwners, WriteKind.saveTokens,
             WriteKind.saveTransfers] } := rfl

theorem initSaveState_WF (st : Store) (cache : Option GoodContract)
    (arr : List ENSData) : (initSaveState st cache arr).WF :=
  ⟨preloadOwners_WF st arr _, preloadTokens_WF st _ _⟩

theorem initSaveState_tokens_nodup (st : Store)
    (cache : Option GoodContract) (arr : List ENSData) :
    (mkeys (initSaveState st cache arr).tokens).Nodup := by
  show (mkeys (mkMap _)).Nodup
  exact mkMap_keys_nodup _

/-! ## The batch-level row effect on one token key -/

/-- The cumulative persisted-row effect of a batch on one token key:
each event whose token-id string equals the key applies its
`applyEventRow`; all other events leave the key alone. -/
def applyEventsRow (cfg : Config) (cid : String) (k : String)
    (arr : List ENSData) (pre : Option TokenRow) : Option TokenRow :=
  arr.foldl (fun acc e =>
    if toString e.tokenId == k then some (applyEventRow cfg cid e acc)
    else acc) pre

theorem processEvents_token_row (cfg : Config) :
    ∀ (arr : List ENSData) (s : SaveState), s.WF → ∀ k : String,
      (mget (processEvents cfg s arr).tokens k).map Token.toRow =
        applyEventsRow cfg (getOrCreateContractEntity s).1.id k arr
          ((mget s.tokens k).map Token.toRow) := by
  intro arr
  induction arr with
  | nil => intro s _ k; rfl
  | cons e rest ih =>
    intro s hWF k
    have hstep := ih (processEvent cfg s e) (processEvent_WF cfg e hWF) k
    have harg : (mget (processEvent cfg s e).tokens k).map Token.toRow =
        (if toString e.tokenId == k
         then some (applyEventRow cfg (getOrCreateContractEntity s).1.id e
           ((mget s.tokens k).map Token.toRow))
         else (mget s.tokens k).map Token.toRow) := by
      by_cases hk : toString e.tokenId = k
      · subst hk
        rw [if_pos (by simp)]
        exact processEvent_token_row_self cfg e hWF
      · rw [if_neg (by simp [hk])]
        rw [processEvent_tokens_other cfg e k (fun hc => hk hc.symm) hWF]
    show (mget (processEvents cfg (processEvent cfg s e) rest).tokens k).map
        Token.toRow =
      applyEventsRow cfg (getOrCreateContractEntity s).1.id k rest
        (if toString e.tokenId == k
         then some (applyEventRow cfg (getOrCreateContractEntity s).1.id e
           ((mget s.tokens k).map Token.toRow))
         else (mget s.tokens k).map Token.toRow)
    rw [hstep, processEvent_contract_fst cfg s e, harg]

/-! ## Per-field decomposition of the per-event row effect -/

/-- Effect of one event on the persisted owner field of its token:
unconditional assignment of the resolved `to` owner. -/
def ownerStep (e : ENSData) (v : Option String) : Option String :=
  if truthy e.toAddr then some (lower (orEmpty e.toAddr)) else none

/-- Effect of one event on the persisted expiration field. -/
def expiresStep (e : ENSData) (v : Option Nat) : Option Nat :=
  match e.expires with
  | some n => if n ≠ 0 then some n else v
  | none => v

/-- Effect of one event on the persisted name field. -/
def nameStep (cfg : Config) (e : ENSData) (v : Option String) :
    Option String :=
  match e.expires with
  | some n =>
    if n ≠ 0 ∧ ¬ n * 1000 < cfg.now then
      match cfg.enrich e.tokenId with
      | none => some ""
      | some m => m.name
    else v
  | none => v

/-- Effect of one event on the persisted uri field. -/
def uriStep (cfg : Config) (e : ENSData) (v : Option String) :
    Option String :=
  match e.expires with
  | some n =>
    if n ≠ 0 ∧ ¬ n * 1000 < cfg.now then
      match cfg.enrich e.tokenId with
      | none => some ""
      | some m => m.url
    else v
  | none => v

/-- Effect of one event on the persisted imageURI field. -/
def imageStep (cfg : Config) (e : ENSData) (v : Option String) :
    Option String :=
  match e.expires with
  | some n =>
    if n ≠ 0 ∧ ¬ n * 1000 < cfg.now then
      match cfg.enrich e.tokenId with
      | none => some ""
      | some m => m.image
    else v
  | none => v

theorem tokenRow_ext {a b : TokenRow} (h1 : a.id = b.id)
    (h2 : a.owner = b.owner) (h3 : a.name = b.name)
    (h4 : a.imageURI = b.imageURI) (h5 : a.uri = b.uri)
    (h6 : a.expires = b.expires) (h7 : a.contract = b.contract) :
    a = b := by
  cases a; cases b; simp_all

theorem applyEventRow_some (cfg : Config) (cid : String) (e : ENSData)
    (r : TokenRow) :
    applyEventRow cfg cid e (some r) =
      { id := r.id,
        owner := ownerStep e r.owner,
        name := nameStep cfg e r.name,
        imageURI := imageStep cfg e r.imageURI,
        uri := uriStep cfg e r.uri,
        expires := expiresStep e r.expires,
        contract := r.contract } := by
  rcases hexp : e.expires with _ | n
  · simp [applyEventRow, rowOrNew, ownerStep, nameStep, imageStep, uriStep,
      expiresStep, hexp]
  · by_cases hn : n = 0
    · subst hn
      simp [applyEventRow, rowOrNew, ownerStep, nameStep, imageStep,
        uriStep, expiresStep, hexp]
    · by_cases hlt : n * 1000 < cfg.now
      · simp [applyEventRow, rowOrNew, ownerStep, nameStep, imageStep,
          uriStep, expiresStep, hexp, hn, hlt]
      · rcases henr : cfg.enrich e.tokenId with _ | m
        · simp [applyEventRow, rowOrNew, ownerStep, nameStep, imageStep,
            uriStep, expiresStep, hexp, hn, hlt, henr]
        · simp [applyEventRow, rowOrNew, ownerStep, nameStep, imageStep,
            uriStep, expiresStep, hexp, hn, hlt, henr]

theorem applyEventRow_none (cfg : Config) (cid : String) (e : ENSData) :
    applyEventRow cfg cid e none =
      { id := toString e.tokenId,
        owner := ownerStep e none,
        name := nameStep cfg e none,
        imageURI := imageStep cfg e none,
        uri := uriStep cfg e none,
        expires := expiresStep e none,
        contract := some cid } := by
  rcases hexp : e.expires with _ | n
  · simp [applyEventRow, rowOrNew, ownerStep, nameStep, imageStep, uriStep,
      expiresStep, hexp]
  · by_cases hn : n = 0
    · subst hn
      simp [applyEventRow, rowOrNew, ownerStep, nameStep, imageStep,
        uriStep, expiresStep, hexp]
    · by_cases hlt : n * 1000 < cfg.now
      · simp [applyEventRow, rowOrNew, ownerStep, nameStep, imageStep,
          uriStep, expiresStep, hexp, hn, hlt]
      · rcases henr : cfg.enrich e.tokenId with _ | m
        · simp [applyEventRow, rowOrNew, ownerStep, nameStep, imageStep,
            uriStep, expiresStep, hexp, hn, hlt, henr]
        · simp [applyEventRow, rowOrNew, ownerStep, nameStep, imageStep,
            uriStep, expiresStep, hexp, hn, hlt, henr]

/-- On an existing row the per-event effect never reads the contract id:
the contract argument is only used to initialize a fresh row. -/
theorem applyEventRow_some_cid (cfg : Config) (cid cid' : String)
    (e : ENSData) (r : TokenRow) :
    applyEventRow cfg cid e (some r) = applyEventRow cfg cid' e (some r) := by
  rw [applyEventRow_some, applyEventRow_some]

/-! ## Constant-or-identity step functions and their folds -/

/-- A per-event field update that, for each event, either leaves every
value alone or sends every value to one constant. -/
def constOrId {β : Type} (f : β → ENSData → β) : Prop :=
  ∀ e, (∀ b, f b e = b) ∨ (∃ c, ∀ b, f b e = c)

theorem constOrId_step_idem {β : Type} (f : β → ENSData → β)
    (hf : constOrId f) (e : ENSData) (b : β) : f (f b e) e = f b e := by
  rcases hf e with he | ⟨c, hc⟩
  · rw [he (f b e)]
  · rw [hc (f b e), hc b]

theorem foldl_const_or_id {β : Type} (f : β → ENSData → β)
    (hf : constOrId f) :
    ∀ es : List ENSData, (∀ b, es.foldl f b = b) ∨
      (∃ c, ∀ b, es.foldl f b = c) := by
  intro es
  induction es with
  | nil => exact Or.inl (fun b => rfl)
  | cons e rest ih =>
    rcases hf e with he | ⟨c, hc⟩
    · rcases ih with hid | ⟨c, hcr⟩
      · refine Or.inl (fun b => ?_)
        show rest.foldl f (f b e) = b
        rw [he b]
        exact hid b
      · refine Or.inr ⟨c, fun b => ?_⟩
        show rest.foldl f (f b e) = c
        exact hcr _
    · rcases ih with hid | ⟨c', hcr⟩
      · refine Or.inr ⟨c, fun b => ?_⟩
        show rest.foldl f (f b e) = c
        rw [hid (f b e)]
        exact hc b
      · exact Or.inr ⟨c', fun b => hcr _⟩

theorem foldl_absorb {β : Type} (f : β → ENSData → β) (hf : constOrId f)
    (es : List ENSData) (e : ENSData) (b0 : β) (h0 : f b0 e = b0) :
    es.foldl f (f (es.foldl f b0) e) = es.foldl f b0 := by
  rcases foldl_const_or_id f hf es with hid | ⟨c, hc⟩
  · rw [hid b0, h0]
    exact hid b0
  · rw [hc]
    exact (hc _).symm ▸ (hc _)

theorem ownerStep_constOrId : constOrId (fun v e => ownerStep e v) := by
  intro e
  exact Or.inr ⟨ownerStep e none, fun b => rfl⟩

theorem expiresStep_constOrId : constOrId (fun v e => expiresStep e v) := by
  intro e
  rcases hexp : e.expires with _ | n
  · exact Or.inl (fun b => by simp [expiresStep, hexp])
  · by_cases hn : n = 0
    · exact Or.inl (fun b => by simp [expiresStep, hexp, hn])
    · exact Or.inr ⟨some n, fun b => by simp [expiresStep, hexp, hn]⟩

theorem nameStep_constOrId (cfg : Config) :
    constOrId (fun v e => nameStep cfg e v) := by
  intro e
  rcases hexp : e.expires with _ | n
  · exact Or.inl (fun b => by simp [nameStep, hexp])
  · by_cases hc : n ≠ 0 ∧ ¬ n * 1000 < cfg.now
    · refine Or.inr ⟨(match cfg.enrich e.tokenId with
        | none => some ""
        | some m => m.name), fun b => ?_⟩
      simp only [nameStep, hexp]
      rw [if_pos hc]
    · exact Or.inl (fun b => by simp only [nameStep, hexp]; rw [if_neg hc])

theorem uriStep_constOrId (cfg : Config) :
    constOrId (fun v e => uriStep cfg e v) := by
  intro e
  rcases hexp : e.expires with _ | n
  · exact Or.inl (fun b => by simp [uriStep, hexp])
  · by_cases hc : n ≠ 0 ∧ ¬ n * 1000 < cfg.now
    · refine Or.inr ⟨(match cfg.enrich e.tokenId with
        | none => some ""
        | some m => m.url), fun b => ?_⟩
      simp only [uriStep, hexp]
      rw [if_pos hc]
    · exact Or.inl (fun b => by simp only [uriStep, hexp]; rw [if_neg hc])

theorem imageStep_constOrId (cfg : Config) :
    constOrId (fun v e => imageStep cfg e v) := by
  intro e
  rcases hexp : e.expires with _ | n
  · exact Or.inl (fun b => by simp [imageStep, hexp])
  · by_cases hc : n ≠ 0 ∧ ¬ n * 1000 < cfg.now
    · refine Or.inr ⟨(match cfg.enrich e.tokenId with
        | none => some ""
        | some m => m.image), fun b => ?_⟩
      simp only [imageStep, hexp]
      rw [if_pos hc]
    · exact Or.inl (fun b => by simp only [imageStep, hexp]; rw [if_neg hc])

/-! ## Folding the per-event row effect over a chain of existing rows -/

theorem applyRow_fold_fields (cfg : Config) (cid : String) :
    ∀ (es : List ENSData) (r : TokenRow),
      (es.foldl (fun acc x => applyEventRow cfg cid x (some acc)) r).id =
        r.id ∧
      (es.foldl (fun acc x => applyEventRow cfg cid x (some acc)) r).owner =
        es.foldl (fun v x => ownerStep x v) r.owner ∧
      (es.foldl (fun acc x => applyEventRow cfg cid x (some acc)) r).name =
        es.foldl (fun v x => nameStep cfg x v) r.name ∧
      (es.foldl (fun acc x =>
          applyEventRow cfg cid x (some acc)) r).imageURI =
        es.foldl (fun v x => imageStep cfg x v) r.imageURI ∧
      (es.foldl (fun acc x => applyEventRow cfg cid x (some acc)) r).uri =
        es.foldl (fun v x => uriStep cfg x v) r.uri ∧
      (es.foldl (fun acc x =>
          applyEventRow cfg cid x (some acc)) r).expires =
        es.foldl (fun v x => expiresStep x v) r.expires ∧
      (es.foldl (fun acc x =>
          applyEventRow cfg cid x (some acc)) r).contract =
        r.contract := by
  intro es
  induction es with
  | nil => intro r; exact ⟨rfl, rfl, rfl, rfl, rfl, rfl, rfl⟩
  | cons e rest ih =>
    intro r
    have hrest := ih (applyEventRow cfg cid e (some r))
    have hstep := applyEventRow_some cfg cid e r
    refine ⟨?_, ?_, ?_, ?_, ?_, ?_, ?_⟩
    · show (rest.foldl (fun acc x => applyEventRow cfg cid x (some acc))
          (applyEventRow cfg cid e (some r))).id = r.id
      rw [hrest.1, hstep]
    · show (rest.foldl (fun acc x => applyEventRow cfg cid x (some acc))
          (applyEventRow cfg cid e (some r))).owner =
        rest.foldl (fun v x => ownerStep x v) (ownerStep e r.owner)
      rw [hrest.2.1, hstep]
    · show (rest.foldl (fun acc x => applyEventRow cfg cid x (some acc))
          (applyEventRow cfg cid e (some r))).name =
        rest.foldl (fun v x => nameStep cfg x v) (nameStep cfg e r.name)
      rw [hrest.2.2.1, hstep]
    · show (rest.foldl (fun acc x => applyEventRow cfg cid x (some acc))
          (applyEventRow cfg cid e (some r))).imageURI =
        rest.foldl (fun v x => imageStep cfg x v)
          (imageStep cfg e r.imageURI)
      rw [hrest.2.2.2.1, hstep]
    · show (rest.foldl (fun acc x => applyEventRow cfg cid x (some acc))
          (applyEventRow cfg cid e (some r))).uri =
        rest.foldl (fun v x => uriStep cfg x v) (uriStep cfg e r.uri)
      rw [hrest.2.2.2.2.1, hstep]
    · show (rest.foldl (fun acc x => applyEventRow cfg cid x (some acc))
          (applyEventRow cfg cid e (some r))).expires =
        rest.foldl (fun v x => expiresStep x v) (expiresStep e r.expires)
      rw [hrest.2.2.2.2.2.1, hstep]
    · show (rest.foldl (fun acc x => applyEventRow cfg cid x (some acc))
          (applyEventRow cfg cid e (some r))).contract = r.contract
      rw [hrest.2.2.2.2.2.2, hstep]

/-- Applying the same event twice in a row to an existing row is the same
as applying it once. -/
theorem applyEventRow_some_idem (cfg : Config) (cid : String) (e : ENSData)
    (r : TokenRow) :
    applyEventRow cfg cid e (some (applyEventRow cfg cid e (some r))) =
      applyEventRow cfg cid e (some r) := by
  rw [applyEventRow_some, applyEventRow_some]
  refine tokenRow_ext rfl ?_ ?_ ?_ ?_ ?_ rfl
  · exact constOrId_step_idem _ ownerStep_constOrId e r.owner
  · exact constOrId_step_idem _ (nameStep_constOrId cfg) e r.name
  · exact constOrId_step_idem _ (imageStep_constOrId cfg) e r.imageURI
  · exact constOrId_step_idem _ (uriStep_constOrId cfg) e r.uri
  · exact constOrId_step_idem _ expiresStep_constOrId e r.expires

/-- A freshly created-and-updated row is a fixpoint of the same event's
effect. -/
theorem applyEventRow_none_fix (cfg : Config) (cid : String)
    (e : ENSData) :
    applyEventRow cfg cid e (some (applyEventRow cfg cid e none)) =
      applyEventRow cfg cid e none := by
  rw [applyEventRow_none, applyEventRow_some]
  refine tokenRow_ext rfl ?_ ?_ ?_ ?_ ?_ rfl
  · exact constOrId_step_idem _ ownerStep_constOrId e none
  · exact constOrId_step_idem _ (nameStep_constOrId cfg) e none
  · exact constOrId_step_idem _ (imageStep_constOrId cfg) e none
  · exact constOrId_step_idem _ (uriStep_constOrId cfg) e none
  · exact constOrId_step_idem _ expiresStep_constOrId e none

theorem applyEventRow_fix (cfg : Config) (cid : String) (e : ENSData)
    (pre : Option TokenRow) :
    applyEventRow cfg cid e (some (applyEventRow cfg cid e pre)) =
      applyEventRow cfg cid e pre := by
  cases pre with
  | none => exact applyEventRow_none_fix cfg cid e
  | some r => exact applyEventRow_some_idem cfg cid e r

theorem applyRow_fold_absorb (cfg : Config) (cid : String)
    (es : List ENSData) (e : ENSData) (r0 : TokenRow)
    (h0 : applyEventRow cfg cid e (some r0) = r0) :
    es.foldl (fun acc x => applyEventRow cfg cid x (some acc))
      (applyEventRow cfg cid e (some
        (es.foldl (fun acc x => applyEventRow cfg cid x (some acc)) r0))) =
    es.foldl (fun acc x => applyEventRow cfg cid x (some acc)) r0 := by
  have h0' := h0
  rw [applyEventRow_some] at h0'
  have hown : ownerStep e r0.owner = r0.owner :=
    congrArg TokenRow.owner h0'
  have hname : nameStep cfg e r0.name = r0.name :=
    congrArg TokenRow.name h0'
  have himg : imageStep cfg e r0.imageURI = r0.imageURI :=
    congrArg TokenRow.imageURI h0'
  have huri : uriStep cfg e r0.uri = r0.uri :=
    congrArg TokenRow.uri h0'
  have hexp : expiresStep e r0.expires = r0.expires :=
    congrArg TokenRow.expires h0'
  have hstep := applyEventRow_some cfg cid e
    (es.foldl (fun acc x => applyEventRow cfg cid x (some acc)) r0)
  refine tokenRow_ext ?_ ?_ ?_ ?_ ?_ ?_ ?_
  · rw [(applyRow_fold_fields cfg cid es _).1, hstep]
  · have hXo : (applyEventRow cfg cid e (some
        (es.foldl (fun acc x => applyEventRow cfg cid x (some acc))
          r0))).owner =
        ownerStep e (es.foldl (fun acc x =>
          applyEventRow cfg cid x (some acc)) r0).owner := by
      rw [hstep]
    rw [(applyRow_fold_fields cfg cid es _).2.1, hXo,
      (applyRow_fold_fields cfg cid es r0).2.1]
    exact foldl_absorb _ ownerStep_constOrId es e r0.owner hown
  · have hXn : (applyEventRow cfg cid e (some
        (es.foldl (fun acc x => applyEventRow cfg cid x (some acc))
          r0))).name =
        nameStep cfg e (es.foldl (fun acc x =>
          applyEventRow cfg cid x (some acc)) r0).name := by
      rw [hstep]
    rw [(applyRow_fold_fields cfg cid es _).2.2.1, hXn,
      (applyRow_fold_fields cfg cid es r0).2.2.1]
    exact foldl_absorb _ (nameStep_constOrId cfg) es e r0.name hname
  · have hXi : (applyEventRow cfg cid e (some
        (es.foldl (fun acc x => applyEventRow cfg cid x (some acc))
          r0))).imageURI =
        imageStep cfg e (es.foldl (fun acc x =>
          applyEventRow cfg cid x (some acc)) r0).imageURI := by
      rw [hstep]
    rw [(applyRow_fold_fields cfg cid es _).2.2.2.1, hXi,
      (applyRow_fold_fields cfg cid es r0).2.2.2.1]
    exact foldl_absorb _ (imageStep_constOrId cfg) es e r0.imageURI himg
  · have hXu : (applyEventRow cfg cid e (some
        (es.foldl (fun acc x => applyEventRow cfg cid x (some acc))
          r0))).uri =
        uriStep cfg e (es.foldl (fun acc x =>
          applyEventRow cfg cid x (some acc)) r0).uri := by
      rw [hstep]
    rw [(applyRow_fold_fields cfg cid es _).2.2.2.2.1, hXu,
      (applyRow_fold_fields cfg cid es r0).2.2.2.2.1]
    exact foldl_absorb _ (uriStep_constOrId cfg) es e r0.uri huri
  · have hXe : (applyEventRow cfg cid e (some
        (es.foldl (fun acc x => applyEventRow cfg cid x (some acc))
          r0))).expires =
        expiresStep e (es.foldl (fun acc x =>
          applyEventRow cfg cid x (some acc)) r0).expires := by
      rw [hstep]
    rw [(applyRow_fold_fields cfg cid es _).2.2.2.2.2.1, hXe,
      (applyRow_fold_fields cfg cid es r0).2.2.2.2.2.1]
    exact foldl_absorb _ expiresStep_constOrId es e r0.expires hexp
  · rw [(applyRow_fold_fields cfg cid es _).2.2.2.2.2.2, hstep]

theorem foldl_some_chain (cfg : Config) (cid : String) :
    ∀ (es : List ENSData) (r : TokenRow),
      es.foldl (fun acc x => some (applyEventRow cfg cid x acc))
          (some r) =
        some (es.foldl (fun acc x => applyEventRow cfg cid x (some acc))
          r) := by
  intro es
  induction es with
  | nil => intro r; rfl
  | cons e rest ih => intro r; exact ih (applyEventRow cfg cid e (some r))

theorem foldl_filter_if {β : Type} (p : ENSData → Bool)
    (f : β → ENSData → β) :
    ∀ (es : List ENSData) (b : β),
      es.foldl (fun acc e => if p e then f acc e else acc) b =
        (es.filter p).foldl f b := by
  intro es
  induction es with
  | nil => intro b; rfl
  | cons e rest ih =>
    intro b
    show rest.foldl (fun acc e => if p e then f acc e else acc)
        (if p e then f b e else b) = ((e :: rest).filter p).foldl f b
    by_cases hp : p e
    · rw [if_pos hp, ih]
      have hfil : (e :: rest).filter p = e :: rest.filter p := by
        simp [List.filter_cons, hp]
      rw [hfil]
      rfl
    · rw [if_neg hp, ih]
      have hfil : (e :: rest).filter p = rest.filter p := by
        simp [List.filter_cons, hp]
      rw [hfil]

theorem applyEventsRow_filter (cfg : Config) (cid : String) (k : String)
    (arr : List ENSData) (pre : Option TokenRow) :
    applyEventsRow cfg cid k arr pre =
      (arr.filter (fun e => toString e.tokenId == k)).foldl
        (fun acc e => some (applyEventRow cfg cid e acc)) pre :=
  foldl_filter_if _ _ arr pre

/-- The batch-level row effect on one key is idempotent: replaying the
same batch over the row it produced reproduces that row, whatever
contract id the second run resolves. -/
theorem applyEventsRow_idem (cfg : Config) (cid cid' : String)
    (k : String) (arr : List ENSData) (pre : Option TokenRow) :
    applyEventsRow cfg cid' k arr (applyEventsRow cfg cid k arr pre) =
      applyEventsRow cfg cid k arr pre := by
  simp only [applyEventsRow_filter]
  generalize arr.filter (fun e => toString e.tokenId == k) = L
  cases L with
  | nil => rfl
  | cons e es =>
    have hX : es.foldl (fun acc x => some (applyEventRow cfg cid x acc))
        (some (applyEventRow cfg cid e pre)) =
        some (es.foldl (fun acc x => applyEventRow cfg cid x (some acc))
          (applyEventRow cfg cid e pre)) := foldl_some_chain cfg cid es _
    show es.foldl (fun acc x => some (applyEventRow cfg cid' x acc))
        (some (applyEventRow cfg cid' e
          (es.foldl (fun acc x => some (applyEventRow cfg cid x acc))
            (some (applyEventRow cfg cid e pre))))) =
      es.foldl (fun acc x => some (applyEventRow cfg cid x acc))
        (some (applyEventRow cfg cid e pre))
    rw [hX]
    rw [applyEventRow_some_cid cfg cid' cid e _]
    rw [foldl_some_chain cfg cid' es _]
    have hg : (fun (acc : TokenRow) x =>
        applyEventRow cfg cid' x (some acc)) =
        (fun (acc : TokenRow) x => applyEventRow cfg cid x (some acc)) := by
      funext acc x
      exact applyEventRow_some_cid cfg cid' cid x acc
    rw [hg]
    refine congrArg some ?_
    exact applyRow_fold_absorb cfg cid es e _
      (applyEventRow_fix cfg cid e pre)

/-! ## Glue for the idempotence assembly -/

theorem store_ext {a b : Store} (h1 : a.owners = b.owners)
    (h2 : a.tokens = b.tokens) (h3 : a.transfers = b.transfers)
    (h4 : a.good = b.good) (h5 : a.bad = b.bad) : a = b := by
  cases a; cases b; simp_all

theorem ownerRow_eq_of_id {a b : OwnerRow} (h : a.id = b.id) : a = b := by
  cases a; cases b; simp_all

theorem contains_of_mem {l : List String} {a : String} (h : a ∈ l) :
    l.contains a = true := by
  simpa [List.elem_iff] using h

theorem lastWith_of_nodup {α : Type} (key : α → String) :
    ∀ (R : List α), ((R.map key).Nodup) → ∀ r ∈ R,
      lastWith key R (key r) = some r := by
  intro R
  induction R with
  | nil => intro _ r hr; cases hr
  | cons a R ih =>
    intro hN r hr
    have hN' : (R.map key).Nodup ∧ key a ∉ R.map key := by
      rw [List.map_cons] at hN
      have h := List.nodup_cons.mp hN
      exact ⟨h.2, h.1⟩
    rw [lastWith_cons]
    rcases List.mem_cons.mp hr with rfl | hr'
    · have hnone : lastWith key R (key r) = none := by
        unfold lastWith
        rw [List.find?_eq_none]
        intro y hy hc
        have hyR : y ∈ R := List.mem_reverse.mp hy
        have hky : key y = key r := by simpa using hc
        exact hN'.2 (hky ▸ List.mem_map.mpr ⟨y, hyR, rfl⟩)
      rw [hnone]
      simp
    · rw [ih hN'.1 r hr']

/-- Under well-formedness the persisted row ids of a token working map
are exactly its keys. -/
theorem tokens_rows_ids (m : List (String × Token)) (hWF : tokensWF m) :
    (m.map (fun p => p.2.toRow)).map TokenRow.id = mkeys m := by
  rw [List.map_map]
  apply List.map_congr_left
  intro p hp
  exact hWF p hp

theorem saveENSData_store_owners (cfg : Config) (st : Store)
    (cache : Option GoodContract) (arr : List ENSData) :
    (saveENSData cfg st cache arr).store.owners =
      upsertAllBy OwnerRow.id (loopEnd cfg st cache arr).store.owners
        ((loopEnd cfg st cache arr).owners.map (fun p => p.2.toRow)) := rfl

theorem saveENSData_store_tokens (cfg : Config) (st : Store)
    (cache : Option GoodContract) (arr : List ENSData) :
    (saveENSData cfg st cache arr).store.tokens =
      upsertAllBy TokenRow.id (loopEnd cfg st cache arr).store.tokens
        ((loopEnd cfg st cache arr).tokens.map (fun p => p.2.toRow)) := rfl

theorem saveENSData_store_transfers (cfg : Config) (st : Store)
    (cache : Option GoodContract) (arr : List ENSData) :
    (saveENSData cfg st cache arr).store.transfers =
      upsertAllBy TransferRow.id (loopEnd cfg st cache arr).store.transfers
        ((loopEnd cfg st cache arr).transfers.map Transfer.toRow) := rfl

theorem saveENSData_store_good (cfg : Config) (st : Store)
    (cache : Option GoodContract) (arr : List ENSData) :
    (saveENSData cfg st cache arr).store.good =
      (loopEnd cfg st cache arr).store.good := rfl

theorem saveENSData_store_bad (cfg : Config) (st : Store)
    (cache : Option GoodContract) (arr : List ENSData) :
    (saveENSData cfg st cache arr).store.bad =
      (loopEnd cfg st cache arr).store.bad := rfl

theorem saveENSData_working_transfers (cfg : Config) (st : Store)
    (cache : Option GoodContract) (arr : List ENSData) :
    (saveENSData cfg st cache arr).transfers =
      (loopEnd cfg st cache arr).transfers := rfl

theorem loopEnd_WF (cfg : Config) (st : Store)
    (cache : Option GoodContract) (arr : List ENSData) :
    (loopEnd cfg st cache arr).WF :=
  processEvents_WF cfg arr _ (initSaveState_WF st cache arr)

theorem loopEnd_tokens_nodup (cfg : Config) (st : Store)
    (cache : Option GoodContract) (arr : List ENSData) :
    (mkeys (loopEnd cfg st cache arr).tokens).Nodup :=
  processEvents_tokens_nodup cfg arr _
    (initSaveState_tokens_nodup st cache arr)

theorem loopEnd_store_tables (cfg : Config) (st : Store)
    (cache : Option GoodContract) (arr : List ENSData) :
    (loopEnd cfg st cache arr).store.owners = st.owners ∧
    (loopEnd cfg st cache arr).store.tokens = st.tokens ∧
    (loopEnd cfg st cache arr).store.transfers = st.transfers :=
  processEvents_store_tables cfg arr (initSaveState st cache arr)

theorem loopEnd_transfers_rows (cfg : Config) (st : Store)
    (cache : Option GoodContract) (arr : List ENSData) :
    (loopEnd cfg st cache arr).transfers.map Transfer.toRow =
      arr.filterMap (transferRowOf cfg) := by
  have h := processEvents_transfers_toRow cfg arr (initSaveState st cache arr)
    (initSaveState_WF st cache arr)
  have h0 : (initSaveState st cache arr).transfers.map Transfer.toRow =
      [] := rfl
  rw [h0, List.nil_append] at h
  exact h

theorem loopEnd_token_row (cfg : Config) (st : Store)
    (cache : Option GoodContract) (arr : List ENSData) (k : String) :
    (mget (loopEnd cfg st cache arr).tokens k).map Token.toRow =
      applyEventsRow cfg
        (getOrCreateContractEntity (initSaveState st cache arr)).1.id k arr
        ((mget (initSaveState st cache arr).tokens k).map Token.toRow) :=
  processEvents_token_row cfg arr _ (initSaveState_WF st cache arr) k

theorem loopEnd_token_cover (cfg : Config) (st : Store)
    (cache : Option GoodContract) (arr : List ENSData) (e : ENSData)
    (he : e ∈ arr) :
    (mget (loopEnd cfg st cache arr).tokens
      (toString e.tokenId)).isSome = true :=
  processEvents_token_cover cfg arr _ (initSaveState_WF st cache arr) e he

/-- Every token id of the batch ends up as the id of a persisted token
row after the run's bulk save. -/
theorem saveENSData_tokens_key_present (cfg : Config) (st : Store)
    (cache : Option GoodContract) (arr : List ENSData) (k : String)
    (hk : k ∈ tokensIds arr) :
    ∃ x ∈ (saveENSData cfg st cache arr).store.tokens, x.id = k := by
  obtain ⟨e, he, hek⟩ := List.mem_map.mp hk
  have hcov := loopEnd_token_cover cfg st cache arr e he
  rw [hek] at hcov
  obtain ⟨t, ht⟩ := Option.isSome_iff_exists.mp hcov
  have hmem := mget_some_mem ht
  have hid : t.id = k := (loopEnd_WF cfg st cache arr).2 _ hmem
  have hrow : t.toRow ∈ (loopEnd cfg st cache arr).tokens.map
      (fun p => p.2.toRow) := List.mem_map.mpr ⟨(k, t), hmem, rfl⟩
  have hres := upsertAll_exists_key TokenRow.id
    ((loopEnd cfg st cache arr).tokens.map (fun p => p.2.toRow))
    (loopEnd cfg st cache arr).store.tokens k
    (Or.inr ⟨t.toRow, hrow, hid⟩)
  rw [saveENSData_store_tokens]
  exact hres

/-- For a batch token id, the persisted row of the run is unique and is
exactly the loop's final working row at that key. -/
theorem saveENSData_token_lastWith (cfg : Config) (st : Store)
    (cache : Option GoodContract) (arr : List ENSData) (k : String)
    (hk : k ∈ tokensIds arr) (x : TokenRow)
    (hx : x ∈ (saveENSData cfg st cache arr).store.tokens)
    (hid : x.id = k) :
    (mget (loopEnd cfg st cache arr).tokens k).map Token.toRow = some x := by
  obtain ⟨e, he, hek⟩ := List.mem_map.mp hk
  have hcov := loopEnd_token_cover cfg st cache arr e he
  rw [hek] at hcov
  obtain ⟨t1, ht1⟩ := Option.isSome_iff_exists.mp hcov
  have hmem := mget_some_mem ht1
  have hid1 : t1.id = k := (loopEnd_WF cfg st cache arr).2 _ hmem
  have hrowsN : (((loopEnd cfg st cache arr).tokens.map
      (fun p => p.2.toRow)).map TokenRow.id).Nodup := by
    rw [tokens_rows_ids _ (loopEnd_WF cfg st cache arr).2]
    exact loopEnd_tokens_nodup cfg st cache arr
  have hrow : t1.toRow ∈ (loopEnd cfg st cache arr).tokens.map
      (fun p => p.2.toRow) := List.mem_map.mpr ⟨(k, t1), hmem, rfl⟩
  have hlast1 : lastWith TokenRow.id
      ((loopEnd cfg st cache arr).tokens.map (fun p => p.2.toRow)) k =
      some t1.toRow := by
    have h := lastWith_of_nodup TokenRow.id
      ((loopEnd cfg st cache arr).tokens.map (fun p => p.2.toRow))
      hrowsN t1.toRow hrow
    rw [show TokenRow.id t1.toRow = k from hid1] at h
    exact h
  have hkmemT : TokenRow.id x ∈ ((loopEnd cfg st cache arr).tokens.map
      (fun p => p.2.toRow)).map TokenRow.id := by
    rw [tokens_rows_ids _ (loopEnd_WF cfg st cache arr).2]
    rw [show TokenRow.id x = k from hid, ← mget_isSome_iff]
    exact hcov
  have hx' : x ∈ upsertAllBy TokenRow.id
      (loopEnd cfg st cache arr).store.tokens
      ((loopEnd cfg st cache arr).tokens.map (fun p => p.2.toRow)) := by
    rw [← saveENSData_store_tokens]
    exact hx
  have hlast2 := upsertAll_mem_last TokenRow.id
    ((loopEnd cfg st cache arr).tokens.map (fun p => p.2.toRow))
    (loopEnd cfg st cache arr).store.tokens x hx' hkmemT
  rw [show TokenRow.id x = k from hid] at hlast2
  have hxt : x = t1.toRow := by
    have := hlast1.symm.trans hlast2
    exact (Option.some.injEq _ _).mp this.symm
  rw [ht1, hxt]
  rfl

theorem mem_of_contains {l : List String} {a : String}
    (h : l.contains a = true) : a ∈ l := by
  simpa [List.elem_iff] using h

/-- Replaying a batch: every batch token id is already present in the
second run's pre-fetched token map. -/
theorem init2_tokens_isSome (cfg : Config) (st : Store)
    (cache : Option GoodContract) (arr : List ENSData) (k : String)
    (hk : k ∈ tokensIds arr) :
    (mget (initSaveState (saveENSData cfg st cache arr).store
      (saveENSData cfg st cache arr).cache arr).tokens k).isSome = true := by
  obtain ⟨x, hx, hid⟩ := saveENSData_tokens_key_present cfg st cache arr k hk
  exact preloadTokens_isSome _ _ _ _
    ⟨x, hx, hid, by rw [hid]; exact contains_of_mem hk⟩

/-- The second run's reconciliation loop finds every token pre-fetched,
so it never writes to the store or the singleton cache. -/
theorem loopEnd_run2_untouched (cfg : Config) (st : Store)
    (cache : Option GoodContract) (arr : List ENSData) :
    (loopEnd cfg (saveENSData cfg st cache arr).store
      (saveENSData cfg st cache arr).cache arr).store =
      (saveENSData cfg st cache arr).store ∧
    (loopEnd cfg (saveENSData cfg st cache arr).store
      (saveENSData cfg st cache arr).cache arr).cache =
      (saveENSData cfg st cache arr).cache := by
  have hcov : ∀ e ∈ arr,
      (mget (initSaveState (saveENSData cfg st cache arr).store
        (saveENSData cfg st cache arr).cache arr).tokens
        (toString e.tokenId)).isSome = true := by
    intro e he
    exact init2_tokens_isSome cfg st cache arr _
      (List.mem_map.mpr ⟨e, he, rfl⟩)
  exact processEvents_untouched cfg arr _ hcov

/-- A bulk save of owner rows whose ids are already present is a no-op:
an `OwnerRow` carries nothing but its id. -/
theorem upsertAll_owner_rows (L R : List OwnerRow)
    (hpres : ∀ r ∈ R, ∃ x ∈ L, OwnerRow.id x = OwnerRow.id r) :
    upsertAllBy OwnerRow.id L R = L := by
  rw [upsertAll_present_eq_map OwnerRow.id R L hpres]
  have hfix : ∀ x ∈ L,
      (lastWith OwnerRow.id R (OwnerRow.id x)).getD x = x := by
    intro x _
    cases hl : lastWith OwnerRow.id R (OwnerRow.id x) with
    | none => rfl
    | some y =>
      obtain ⟨hyR, hyk⟩ := lastWith_mem hl
      rw [ownerRow_eq_of_id hyk]
      rfl
  rw [List.map_congr_left hfix, List.map_id']

theorem saveENSData2_transfers (cfg : Config) (st : Store)
    (cache : Option GoodContract) (arr : List ENSData) :
    (saveENSData cfg (saveENSData cfg st cache arr).store
      (saveENSData cfg st cache arr).cache arr).store.transfers =
      (saveENSData cfg st cache arr).store.transfers := by
  rw [saveENSData_store_transfers cfg (saveENSData cfg st cache arr).store
    (saveENSData cfg st cache arr).cache arr]
  rw [loopEnd_transfers_rows]
  rw [congrArg Store.transfers (loopEnd_run2_untouched cfg st cache arr).1]
  rw [saveENSData_store_transfers cfg st cache arr, loopEnd_transfers_rows,
    (loopEnd_store_tables cfg st cache arr).2.2]
  exact upsertAll_idem TransferRow.id st.transfers
    (arr.filterMap (transferRowOf cfg))

theorem saveENSData2_owners (cfg : Config) (st : Store)
    (cache : Option GoodContract) (arr : List ENSData) :
    (saveENSData cfg (saveENSData cfg st cache arr).store
      (saveENSData cfg st cache arr).cache arr).store.owners =
      (saveENSData cfg st cache arr).store.owners := by
  rw [saveENSData_store_owners cfg (saveENSData cfg st cache arr).store
    (saveENSData cfg st cache arr).cache arr]
  rw [congrArg Store.owners (loopEnd_run2_untouched cfg st cache arr).1]
  apply upsertAll_owner_rows
  intro r hr
  obtain ⟨p, hp, rfl⟩ := List.mem_map.mp hr
  have hWF2 := (loopEnd_WF cfg (saveENSData cfg st cache arr).store
    (saveENSData cfg st cache arr).cache arr).1
  have hpid : p.2.id = p.1 := (hWF2 p hp).1
  have hkey : p.1 ∈ mkeys (loopEnd cfg
      (saveENSData cfg st cache arr).store
      (saveENSData cfg st cache arr).cache arr).owners :=
    List.mem_map.mpr ⟨p, hp, rfl⟩
  rcases processEvents_owner_keys_sub cfg arr _ p.1 hkey
    with h1 | ⟨e, he, h2⟩
  · obtain ⟨x, hx, hxid⟩ := preloadOwners_keys_sub
      (saveENSData cfg st cache arr).store (ownersIds arr) _ p.1 h1
    refine ⟨x, hx, ?_⟩
    show x.id = p.2.id
    rw [hxid, hpid]
  · have hp1 := processEvents_owner_key_present cfg arr
      (initSaveState st cache arr) (initSaveState_WF st cache arr) e he
    have hk1 : p.1 ∈ mkeys (loopEnd cfg st cache arr).owners := by
      rcases h2 with ⟨ht, hpe⟩ | ⟨ht, hpe⟩
      · rw [hpe]; exact hp1.1 ht
      · rw [hpe]; exact hp1.2 ht
    obtain ⟨q, hq, hqk⟩ := List.mem_map.mp hk1
    have hO1row : q.2.toRow ∈ (loopEnd cfg st cache arr).owners.map
        (fun p => p.2.toRow) := List.mem_map.mpr ⟨q, hq, rfl⟩
    have hqid : OwnerRow.id q.2.toRow = p.1 := by
      have hq2 := ((loopEnd_WF cfg st cache arr).1 q hq).1
      show q.2.id = p.1
      rw [hq2, hqk]
    have hres := upsertAll_exists_key OwnerRow.id
      ((loopEnd cfg st cache arr).owners.map (fun p => p.2.toRow))
      (loopEnd cfg st cache arr).store.owners p.1
      (Or.inr ⟨q.2.toRow, hO1row, hqid⟩)
    rw [← saveENSData_store_owners cfg st cache arr] at hres
    obtain ⟨x, hx, hxk⟩ := hres
    refine ⟨x, hx, ?_⟩
    show OwnerRow.id x = p.2.id
    rw [hxk, hpid]

theorem saveENSData2_good (cfg : Config) (st : Store)
    (cache : Option GoodContract) (arr : List ENSData) :
    (saveENSData cfg (saveENSData cfg st cache arr).store
      (saveENSData cfg st cache arr).cache arr).store.good =
      (saveENSData cfg st cache arr).store.good := by
  rw [saveENSData_store_good cfg (saveENSData cfg st cache arr).store
    (saveENSData cfg st cache arr).cache arr]
  rw [congrArg Store.good (loopEnd_run2_untouched cfg st cache arr).1]

theorem saveENSData2_bad (cfg : Config) (st : Store)
    (cache : Option GoodContract) (arr : List ENSData) :
    (saveENSData cfg (saveENSData cfg st cache arr).store
      (saveENSData cfg st cache arr).cache arr).store.bad =
      (saveENSData cfg st cache arr).store.bad := by
  rw [saveENSData_store_bad cfg (saveENSData cfg st cache arr).store
    (saveENSData cfg st cache arr).cache arr]
  rw [congrArg Store.bad (loopEnd_run2_untouched cfg st cache arr).1]

theorem saveENSData2_tokens (cfg : Config) (st : Store)
    (cache : Option GoodContract) (arr : List ENSData) :
    (saveENSData cfg (saveENSData cfg st cache arr).store
      (saveENSData cfg st cache arr).cache arr).store.tokens =
      (saveENSData cfg st cache arr).store.tokens := by
  rw [saveENSData_store_tokens cfg (saveENSData cfg st cache arr).store
    (saveENSData cfg st cache arr).cache arr]
  rw [congrArg Store.tokens (loopEnd_run2_untouched cfg st cache arr).1]
  have hpres : ∀ r ∈ (loopEnd cfg (saveENSData cfg st cache arr).store
      (saveENSData cfg st cache arr).cache arr).tokens.map
      (fun p => p.2.toRow),
      ∃ x ∈ (saveENSData cfg st cache arr).store.tokens,
        TokenRow.id x = TokenRow.id r := by
    intro r hr
    obtain ⟨p, hp, rfl⟩ := List.mem_map.mp hr
    have hWF2 := (loopEnd_WF cfg (saveENSData cfg st cache arr).store
      (saveENSData cfg st cache arr).cache arr).2
    have hpid : p.2.id = p.1 := hWF2 p hp
    have hkey : p.1 ∈ mkeys (loopEnd cfg
        (saveENSData cfg st cache arr).store
        (saveENSData cfg st cache arr).cache arr).tokens :=
      List.mem_map.mpr ⟨p, hp, rfl⟩
    have hsub := processEvents_token_keys_sub cfg arr _
      (initSaveState_WF (saveENSData cfg st cache arr).store
        (saveENSData cfg st cache arr).cache arr) p.1 hkey
    rcases hsub with h1 | h1
    · obtain ⟨x, hx, hxid, _⟩ := preloadTokens_keys_sub
        (saveENSData cfg st cache arr).store (tokensIds arr) _ p.1 h1
      refine ⟨x, hx, ?_⟩
      show x.id = p.2.id
      rw [hxid, hpid]
    · obtain ⟨x, hx, hxid⟩ := saveENSData_tokens_key_present
        cfg st cache arr p.1 h1
      refine ⟨x, hx, ?_⟩
      show x.id = p.2.id
      rw [hxid, hpid]
  rw [upsertAll_present_eq_map TokenRow.id _ _ hpres]
  have hfix : ∀ x ∈ (saveENSData cfg st cache arr).store.tokens,
      (lastWith TokenRow.id ((loopEnd cfg
        (saveENSData cfg st cache arr).store
        (saveENSData cfg st cache arr).cache arr).tokens.map
        (fun p => p.2.toRow)) (TokenRow.id x)).getD x = x := by
    intro x hx
    cases hl : lastWith TokenRow.id ((loopEnd cfg
        (saveENSData cfg st cache arr).store
        (saveENSData cfg st cache arr).cache arr).tokens.map
        (fun p => p.2.toRow)) (TokenRow.id x) with
    | none => rfl
    | some y =>
      obtain ⟨hyR, hyk⟩ := lastWith_mem hl
      obtain ⟨q, hq, rfl⟩ := List.mem_map.mp hyR
      have hWF2 := (loopEnd_WF cfg (saveENSData cfg st cache arr).store
        (saveENSData cfg st cache arr).cache arr).2
      have hq1 : q.2.id = q.1 := hWF2 q hq
      have hyid : TokenRow.id q.2.toRow = q.1 := hq1
      -- the working row of run 2 at the key
      have hrow2 := token_row_mem_mget hWF2
        (loopEnd_tokens_nodup cfg (saveENSData cfg st cache arr).store
          (saveENSData cfg st cache arr).cache arr)
        (List.mem_map.mpr ⟨q, hq, rfl⟩)
      rw [hyid] at hrow2
      -- the key is a batch token id
      have hkey2 : q.1 ∈ mkeys (loopEnd cfg
          (saveENSData cfg st cache arr).store
          (saveENSData cfg st cache arr).cache arr).tokens :=
        List.mem_map.mpr ⟨q, hq, rfl⟩
      have hqIds : q.1 ∈ tokensIds arr := by
        rcases processEvents_token_keys_sub cfg arr _
          (initSaveState_WF (saveENSData cfg st cache arr).store
            (saveENSData cfg st cache arr).cache arr) q.1 hkey2
          with h1 | h1
        · obtain ⟨_, _, _, hcont⟩ := preloadTokens_keys_sub
            (saveENSData cfg st cache arr).store (tokensIds arr) _ q.1 h1
          exact mem_of_contains hcont
        · exact h1
      -- the second run's pre-fetched row at the key is the first run's
      -- persisted row
      obtain ⟨t2, ht2⟩ := Option.isSome_iff_exists.mp
        (init2_tokens_isSome cfg st cache arr q.1 hqIds)
      obtain ⟨x', hx', hxid', _, hrowx'⟩ := preloadTokens_mem_spec
        (saveENSData cfg st cache arr).store (tokensIds arr) 0 q.1 t2 ht2
      have hsl := saveENSData_token_lastWith cfg st cache arr q.1 hqIds
        x' hx' hxid'
      have hpre2 : (mget (initSaveState
          (saveENSData cfg st cache arr).store
          (saveENSData cfg st cache arr).cache arr).tokens q.1).map
          Token.toRow =
          (mget (loopEnd cfg st cache arr).tokens q.1).map Token.toRow := by
        rw [ht2, hsl]
        simp only [Option.map_some']
        exact congrArg some hrowx'
      -- the second run's working row equals the first run's
      have hchain : (mget (loopEnd cfg
          (saveENSData cfg st cache arr).store
          (saveENSData cfg st cache arr).cache arr).tokens q.1).map
          Token.toRow =
          (mget (loopEnd cfg st cache arr).tokens q.1).map Token.toRow := by
        rw [loopEnd_token_row cfg (saveENSData cfg st cache arr).store
          (saveENSData cfg st cache arr).cache arr q.1, hpre2,
          loopEnd_token_row cfg st cache arr q.1, applyEventsRow_idem,
          ← loopEnd_token_row cfg st cache arr q.1]
      -- x is also the first run's persisted row at the key
      have hxq : x.id = q.1 := by
        rw [← hyk]
        exact hyid
      have hslx := saveENSData_token_lastWith cfg st cache arr q.1 hqIds
        x hx hxq
      -- conclude y = x
      have hyx : q.2.toRow = x := by
        have h1 : some q.2.toRow =
            (mget (loopEnd cfg st cache arr).tokens q.1).map Token.toRow :=
          hrow2.symm.trans hchain
        have h2 : some q.2.toRow = some x := h1.trans hslx
        exact (Option.some.injEq _ _).mp h2
      rw [hyx]
      rfl
  rw [List.map_congr_left hfix, List.map_id']

/-! ## Claim C7 -/

/--
C7: feeding the same batch twice produces the same final persisted state
as feeding it once — replaying the batch against the store and
process-wide singleton cache that the first run produced leaves every
persisted table (owners, tokens, transfers and both contract tables)
unchanged.  All entities are persisted by upsert on their primary
identity, and the second run's Transfer rows carry the same synthetic
ids as the first run's, so no duplicate rows arise.
-/
theorem C7_idempotent (cfg : Config) (st : Store)
    (cache : Option GoodContract) (arr : List ENSData) :
    (saveENSData cfg (saveENSData cfg st cache arr).store
        (saveENSData cfg st cache arr).cache arr).store =
      (saveENSData cfg st cache arr).store :=
  store_ext (saveENSData2_owners cfg st cache arr)
    (saveENSData2_tokens cfg st cache arr)
    (saveENSData2_transfers cfg st cache arr)
    (saveENSData2_good cfg st cache arr)
    (saveENSData2_bad cfg st cache arr)
